import Mathlib

/-!
Verification of the flight-tracker price-observation store and insight engine.

The definitions below are a shallow embedding of `src/server/index.js`:

* `Row` models a row of the `flights` SQLite table (the fields the insight
  and history logic reads); prices are modelled as rationals, timestamps as
  naturals (ISO timestamp strings compare lexicographically, which agrees
  with chronological order).
* `upperStr` models SQLite `UPPER(...)` / JS `toUpperCase()` on the ASCII
  airport codes and `jsIncludes` models JS `String.prototype.includes`.
* `record`/`queryHistory` model the insert path and the
  `/api/flights/history` handler, `deriveInsights` the `/api/insights`
  handler, `getNextSerpKey` the round-robin key rotation, `datesToSearch`
  the flexible-date window construction, and `fetchRealFlightPrices` the
  fetch orchestration including the `try`/`catch` that wraps the whole
  per-date loop.
-/

namespace FlightTracker

/-! ## String utilities -/

/-- ASCII upper-casing of a string, character by character.  This is the
behaviour of SQLite `UPPER` (and of JS `toUpperCase` on the ASCII airport
codes handled by the server): `Char.toUpper` maps `a`–`z` to `A`–`Z` and
leaves every other character unchanged. -/
def upperStr (s : String) : String := ⟨s.data.map Char.toUpper⟩

/-- JS `haystack.includes(needle)`: the needle occurs contiguously in the
haystack. -/
def jsIncludes (haystack needle : String) : Prop := needle.data <:+: haystack.data

instance (h n : String) : Decidable (jsIncludes h n) := by
  unfold jsIncludes; infer_instance

/-! ## The data model

A `Row` collects the columns of the `flights` table that the history and
insight logic reads. -/

structure Row where
  airline : String
  origin : String
  destination : String
  departure_date : String
  price : ℚ
  scraped_at : ℕ
deriving DecidableEq, Repr

/-! ## The observation store

The table is append-only; `record` models one `INSERT` as performed by
`fetchRealFlightPrices`, which upper-cases the airport codes before writing
(`origin = origin.toUpperCase()`, `destination = destination.toUpperCase()`).
`queryHistory` models the `/api/flights/history` handler: an optional
`{origin, destination}` filter compared via SQL `UPPER(...) = UPPER(?)`,
results ordered by `scraped_at` ascending. -/

def record (store : List Row) (obs : Row) : List Row :=
  store ++ [{ obs with origin := upperStr obs.origin,
                       destination := upperStr obs.destination }]

/-- The SQL `WHERE UPPER(origin) = UPPER(?) AND UPPER(destination) = UPPER(?)`
row test. -/
def rowMatches (o d : String) (r : Row) : Prop :=
  upperStr r.origin = upperStr o ∧ upperStr r.destination = upperStr d

instance (o d : String) (r : Row) : Decidable (rowMatches o d r) := by
  unfold rowMatches; infer_instance

/-- SQL `ORDER BY scraped_at ASC` (a stable sort; SQLite guarantees only
sortedness, which is all the spec claims). -/
def sortByScrapedAt (l : List Row) : List Row :=
  l.insertionSort (fun x y => x.scraped_at ≤ y.scraped_at)

def queryHistory (store : List Row) (filt : Option (String × String)) : List Row :=
  match filt with
  | some (o, d) => sortByScrapedAt (store.filter (fun r => decide (rowMatches o d r)))
  | none => sortByScrapedAt store

/-! ## Key rotation (`getNextSerpKey`)

The module keeps a list `serpApiKeys` and a mutable index `serpKeyIndex`
initialised to `0`.  `getNextSerpKey` returns `null` when the list is empty
(without touching the index) and otherwise returns
`serpApiKeys[serpKeyIndex % serpApiKeys.length]` and increments the index.
We model the call as a function of the explicit index state. -/

def getNextSerpKey (keys : List String) (serpKeyIndex : ℕ) : Option String × ℕ :=
  if h : keys.length = 0 then (none, serpKeyIndex)
  else (some (keys.get ⟨serpKeyIndex % keys.length,
          Nat.mod_lt _ (Nat.pos_of_ne_zero h)⟩), serpKeyIndex + 1)

/-- The value of `serpKeyIndex` after `n` calls to `getNextSerpKey`,
starting from the initial state `0`. -/
def serpKeyIndexAfter (keys : List String) : ℕ → ℕ
  | 0 => 0
  | n + 1 => (getNextSerpKey keys (serpKeyIndexAfter keys n)).2

/-- The key returned by the `n`-th call (`n ≥ 1`) to `getNextSerpKey`,
starting from the initial state. -/
def nthSerpKey (keys : List String) (n : ℕ) : Option String :=
  (getNextSerpKey keys (serpKeyIndexAfter keys (n - 1))).1

/-! ## The insight engine (`/api/insights`)

`deriveInsights` is the body of the handler after the SQL query returned the
(at most 100, most-recent-first) `rows` of the observation window. -/

inductive InsightType where
  | buy
  | wait
  | flex
deriving DecidableEq, Repr

/-- The fields of an emitted insight that the specification constrains:
`id`, `type`, `title`, `airline`, `price` and (for `flex`) `savings`.  The
purely decorative fields (`description`, `flightDetail`, `date`,
`searchUrl`) carry no logic and are not modelled. -/
structure Insight where
  id : ℕ
  type : InsightType
  title : String
  airline : String
  price : ℚ
  savings : Option ℚ
deriving DecidableEq, Repr

/-- One step of
`rows.forEach(r => { if (!byAirline[r.airline]) byAirline[r.airline] = [];
byAirline[r.airline].push(r); })`: push `r` onto its airline's group,
creating the group (at the end, i.e. in key-insertion order) on first
sight. -/
def pushGroup : List (String × List Row) → Row → List (String × List Row)
  | [], r => [(r.airline, [r])]
  | (a, g) :: rest, r =>
      if a = r.airline then (a, g ++ [r]) :: rest
      else (a, g) :: pushGroup rest r

/-- The `byAirline` table, as the association list of groups in JS object
key-insertion order (airline names are non-numeric strings, for which JS
preserves insertion order). -/
def groupByAirline (rows : List Row) : List (String × List Row) :=
  rows.foldl pushGroup []

/-- The JS `Math.min(...prices)` over the group (groups are never empty). -/
def minPrice (g : List Row) : ℚ := ((g.map Row.price).min?).getD 0

/-- The rounded mean `Math.round(prices.reduce((a, b) => a + b, 0) / prices.length)`.
Mathlib's `round` is `⌊x + 1/2⌋`, which agrees with JS `Math.round`
(half-up, also for negative halves). -/
def avgPrice (g : List Row) : ℤ := round ((g.map Row.price).sum / (g.length : ℚ))

/-- The per-airline best-price insight pushed by the first `forEach` loop:
`minPrice < avgPrice * 0.9` gives a `buy` ("Strong Buy Recommendation"),
`minPrice > avgPrice * 1.1` a `wait` ("Hold / Wait"), otherwise a `buy`
("Best Price Found"). -/
def airlineInsight (idv : ℕ) (airline : String) (g : List Row) : Insight :=
  if minPrice g < (avgPrice g : ℚ) * (9 / 10) then
    { id := idv, type := .buy, title := "Strong Buy Recommendation",
      airline := airline, price := minPrice g, savings := none }
  else if minPrice g > (avgPrice g : ℚ) * (11 / 10) then
    { id := idv, type := .wait, title := "Hold / Wait",
      airline := airline, price := minPrice g, savings := none }
  else
    { id := idv, type := .buy, title := "Best Price Found",
      airline := airline, price := minPrice g, savings := none }

/-- Accumulator form of first-occurrence deduplication: `seen` holds the
values already emitted. -/
def dedupFirstAux (seen : List String) : List String → List String
  | [] => []
  | x :: xs =>
      if x ∈ seen then dedupFirstAux seen xs
      else x :: dedupFirstAux (seen ++ [x]) xs

/-- First-occurrence deduplication `[...new Set(xs)]`: keeps the first occurrence of each
value, in encounter order (JS `Set` iteration order). -/
def dedupFirst (l : List String) : List String := dedupFirstAux [] l

/-- The `uniqueDates` of the flex loop:
`[...new Set(flights.map(f => f.departure_date))].filter(Boolean)` —
distinct departure dates with the empty string removed. -/
def uniqueDates (g : List Row) : List String :=
  (dedupFirst (g.map Row.departure_date)).filter (fun d => d ≠ "")

/-- One step of the `cheapestByDate` accumulation: keep, per
`departure_date` key (in key-insertion order), the first flight strictly
cheaper than the current entry
(`if (!cheapestByDate[d] || f.price < cheapestByDate[d].price)`). -/
def insertCheapest : List (String × Row) → Row → List (String × Row)
  | [], f => [(f.departure_date, f)]
  | (d, r) :: rest, f =>
      if d = f.departure_date then
        if f.price < r.price then (d, f) :: rest else (d, r) :: rest
      else (d, r) :: insertCheapest rest f

/-- The `cheapestByDate` table of the flex loop, as an association list in
JS object key-insertion order.  Note it is built from all flights of the
group, including any with an empty `departure_date` (only `uniqueDates`
filters those out). -/
def cheapestByDate (g : List Row) : List (String × Row) :=
  g.foldl insertCheapest []

/-- The sort `dates.sort((a, b) => a[1].price - b[1].price)`: per-date entries
by price ascending (JS sort is stable; only sortedness matters here). -/
def sortDatesByPrice (l : List (String × Row)) : List (String × Row) :=
  l.insertionSort (fun x y => x.2.price ≤ y.2.price)

/-- The flexible-date check for one airline group: returns
`some (cheapestPrice, savings)` when the loop pushes a `flex` insight and
`none` when it `return`s early or the savings test fails. -/
def flexData (g : List Row) : Option (ℚ × ℚ) :=
  if (uniqueDates g).length ≤ 1 then none
  else
    let dates := sortDatesByPrice (cheapestByDate g)
    match dates.head?, dates.getLast? with
    | some cheapest, some mostExpensive =>
        if cheapest.1 ≠ mostExpensive.1 then
          let savings := mostExpensive.2.price - cheapest.2.price
          if savings > 20 then some (cheapest.2.price, savings) else none
        else none
    | _, _ => none

/-- The first `airlines.forEach` loop: one best-price insight per airline
group, ids assigned from the running counter. -/
def bestPricePass : ℕ → List (String × List Row) → List Insight
  | _, [] => []
  | c, (a, g) :: rest => airlineInsight c a g :: bestPricePass (c + 1) rest

/-- The second `airlines.forEach` loop: at most one `flex` insight per
airline group; the counter advances only when an insight is pushed. -/
def flexPass : ℕ → List (String × List Row) → List Insight
  | _, [] => []
  | c, (a, g) :: rest =>
      match flexData g with
      | some (pr, sv) =>
          { id := c, type := .flex, title := "Cheaper " ++ a ++ " Date",
            airline := a, price := pr, savings := some sv } :: flexPass (c + 1) rest
      | none => flexPass c rest

/-- The `/api/insights` computation on the queried window `rows`:
empty window gives `[]`; otherwise the best-price insights (ids from 1)
followed by the flex insights (ids continuing after them), in the order the
two loops `push` them. -/
def deriveInsights (rows : List Row) : List Insight :=
  if rows.isEmpty then []
  else
    let groups := groupByAirline rows
    bestPricePass 1 groups ++ flexPass (1 + groups.length) groups

/-! ## Spec-side notions used to state the insight claims -/

/-- The number of distinct non-empty departure dates of a group, stated
set-theoretically (independently of the engine's list representation). -/
def distinctNonEmptyDateCount (g : List Row) : ℕ :=
  (((g.map Row.departure_date).toFinset).erase "").card

/-- The minimum price among the group's observations on date `d`. -/
def minPriceOnDate (g : List Row) (d : String) : ℚ :=
  (((g.filter (fun f => f.departure_date = d)).map Row.price).min?).getD 0

/-- The per-date cheapest prices, spec-side: for each distinct
`departure_date` value of the group (in first-encounter order), the
cheapest price observed on that date. -/
def perDateMinPrices (g : List Row) : List ℚ :=
  (dedupFirst (g.map Row.departure_date)).map (minPriceOnDate g)

/-- The per-date cheapest prices as the engine computes them: the prices of
the `cheapestByDate` entries. -/
def perDateCheapestPrices (g : List Row) : List ℚ :=
  (cheapestByDate g).map (fun e => e.2.price)

/-- The flex savings of a group: most expensive minus cheapest of the
per-date cheapest prices. -/
def flexSavings (g : List Row) : ℚ :=
  ((perDateMinPrices g).max?).getD 0 - ((perDateMinPrices g).min?).getD 0

/-! ## The flexible-date window (`datesToSearch`)

Dates are modelled as day numbers (days since 0000-03-01 in the proleptic
Gregorian calendar, the standard civil-from-days construction), with
`parseDate`/`fmtDate` converting from and to `YYYY-MM-DD` strings.  The JS
code manipulates `Date` objects and formats them with
`toISOString().split('T')[0]`; adding or subtracting `i` days and formatting
is exactly day-number arithmetic. -/

/-- Day number of a civil date (days since 0000-03-01), valid for the years
handled by the tracker. -/
def toDays (y m d : ℕ) : ℕ :=
  let y' := if m ≤ 2 then y - 1 else y
  let era := y' / 400
  let yoe := y' % 400
  let mp := (m + 9) % 12
  let doy := (153 * mp + 2) / 5 + d - 1
  let doe := yoe * 365 + yoe / 4 - yoe / 100 + doy
  era * 146097 + doe

/-- Civil date `(y, m, d)` of a day number (inverse of `toDays` on valid
dates). -/
def fromDays (z : ℕ) : ℕ × ℕ × ℕ :=
  let era := z / 146097
  let doe := z % 146097
  let yoe := (doe - doe / 1460 + doe / 36524 - doe / 146096) / 365
  let y' := yoe + era * 400
  let doy := doe - (365 * yoe + yoe / 4 - yoe / 100)
  let mp := (5 * doy + 2) / 153
  let d := doy - (153 * mp + 2) / 5 + 1
  let m := if mp < 10 then mp + 3 else mp - 9
  (if m ≤ 2 then y' + 1 else y', m, d)

/-- Zero-pad a number to two digits (month and day fields of ISO dates). -/
def pad2 (n : ℕ) : String := if n < 10 then "0" ++ toString n else toString n

/-- Format a day number as `YYYY-MM-DD` (as `toISOString().split('T')[0]`
produces). -/
def fmtDate (z : ℕ) : String :=
  let c := fromDays z
  toString c.1 ++ "-" ++ pad2 c.2.1 ++ "-" ++ pad2 c.2.2

/-- Split a character list at each `-` (the field separator of ISO dates). -/
def splitDash : List Char → List (List Char)
  | [] => [[]]
  | c :: cs =>
      if c = '-' then [] :: splitDash cs
      else
        match splitDash cs with
        | t :: ts => (c :: t) :: ts
        | [] => [[c]]

/-- Read a non-empty all-digit character list as a number. -/
def digitsToNat? (cs : List Char) : Option ℕ :=
  if cs ≠ [] ∧ cs.all (fun c => c.isDigit) then
    some (cs.foldl (fun n c => 10 * n + (c.toNat - 48)) 0)
  else none

/-- Parse a `YYYY-MM-DD` string to its day number (`new Date(str)` on a
well-formed date string). -/
def parseDate (s : String) : Option ℕ :=
  match splitDash s.data with
  | [ys, ms, ds] =>
      match digitsToNat? ys, digitsToNat? ms, digitsToNat? ds with
      | some y, some m, some d => some (toDays y m d)
      | _, _, _ => none
  | _ => none

/-- The date-expansion window of `fetchRealFlightPrices`:
`[baseDateStr]`, then for each `i` in `1..flexDays` the dates `base − i`
and `base + i` are pushed in that order.  (On an unparsable base date the
JS code would throw while formatting; the claims only concern well-formed
dates, for which `parseDate` succeeds.) -/
def datesToSearch (baseDateStr : String) (flexDays : ℕ) : List String :=
  if flexDays > 0 then
    match parseDate baseDateStr with
    | some b =>
        baseDateStr :: (List.range flexDays).flatMap
          (fun i => [fmtDate (b - (i + 1)), fmtDate (b + (i + 1))])
    | none => [baseDateStr]
  else [baseDateStr]

/-! ## The fetch path (`fetchRealFlightPrices`)

The upstream source is an external collaborator: for each candidate date it
either returns a list of candidate fares or fails (network/HTTP error,
which `axios` surfaces as a thrown exception). -/

/-- One leg of a candidate fare (`flight.flights[i]`). -/
structure Leg where
  airline : String
  departure_time : String
  arrival_time : String
deriving DecidableEq, Repr

/-- A candidate fare as returned by the upstream source
(`best_flights`/`other_flights` entries); `price` is `none` when the field
is absent. -/
structure UpstreamFlight where
  legs : List Leg
  price : Option ℚ
deriving DecidableEq, Repr

/-- First-leg airline: `const leg = flight.flights?.[0] || {}; const airline = leg.airline || ''`. -/
def fareAirline (f : UpstreamFlight) : String :=
  ((f.legs.head?).map Leg.airline).getD ""

/-- JS truthiness of the `price` field: absent (`undefined`/`null`) and `0`
are falsy, every other number — negative ones included — is truthy. -/
def priceTruthy : Option ℚ → Prop
  | none => False
  | some p => p ≠ 0

instance (p : Option ℚ) : Decidable (priceTruthy p) := by
  cases p <;> simp only [priceTruthy] <;> infer_instance

/-- The save condition of the per-fare loop:
`if (price && (airline.includes('JetBlue') || airline.includes('JSX')))`. -/
def keepFare (f : UpstreamFlight) : Prop :=
  priceTruthy f.price ∧
    (jsIncludes (fareAirline f) "JetBlue" ∨ jsIncludes (fareAirline f) "JSX")

instance (f : UpstreamFlight) : Decidable (keepFare f) := by
  unfold keepFare; infer_instance

/-- The row inserted for a retained fare (`stmt.run(airline, origin,
destination, dStr, price, now, ...)`). -/
def fareToRow (origin destination dStr : String) (now : ℕ)
    (f : UpstreamFlight) : Row :=
  { airline := fareAirline f, origin := origin, destination := destination,
    departure_date := dStr, price := (f.price).getD 0, scraped_at := now }

/-- The rows the per-date `allFlights.forEach` loop inserts for one date's
upstream response. -/
def savedRows (origin destination dStr : String) (now : ℕ)
    (fares : List UpstreamFlight) : List Row :=
  (fares.filter (fun f => decide (keepFare f))).map (fareToRow origin destination dStr now)

/-- The `for (const dStr of datesToSearch)` loop under the surrounding
`try`: returns the dates for which an upstream query was issued and the
rows written.  An upstream error is thrown out of the loop to the `catch`,
so the loop stops with the failing date as the last one attempted. -/
def fetchLoop (upstream : String → Except String (List UpstreamFlight))
    (origin destination : String) (now : ℕ) :
    List String → List String × List Row
  | [] => ([], [])
  | d :: rest =>
      match upstream d with
      | .error _ => ([d], [])
      | .ok fares =>
          (d :: (fetchLoop upstream origin destination now rest).1,
            savedRows origin destination d now fares ++
              (fetchLoop upstream origin destination now rest).2)

/-- The observable outcome of one `fetchRealFlightPrices` call.  The JS
function always returns normally (`catch` only logs), so the model is a
total function: completing is reporting success. -/
structure FetchOutcome where
  attempted : List String
  stored : List Row
  noKey : Bool
deriving DecidableEq, Repr

/-- The fetch entry point `fetchRealFlightPrices(origin, destination, baseDateStr, flexDays)`:
with no credential it logs and returns without querying; otherwise it
upper-cases the airport codes, builds the date window and runs the per-date
loop inside a single `try`/`catch`. -/
def fetchRealFlightPrices (apiKey : Option String)
    (upstream : String → Except String (List UpstreamFlight))
    (origin destination baseDateStr : String) (flexDays : ℕ) (now : ℕ) :
    FetchOutcome :=
  match apiKey with
  | none => { attempted := [], stored := [], noKey := true }
  | some _ =>
      { attempted := (fetchLoop upstream (upperStr origin) (upperStr destination) now
          (datesToSearch baseDateStr flexDays)).1,
        stored := (fetchLoop upstream (upperStr origin) (upperStr destination) now
          (datesToSearch baseDateStr flexDays)).2,
        noKey := false }

/-! ## Concrete fixtures used by counterexamples and witnesses -/

/-- Two JetBlue observations of one airline on two dates, prices 100 and
200: the window of the flex example. -/
def wFlexExample : List Row :=
  [{ airline := "JetBlue", origin := "JFK", destination := "MIA",
     departure_date := "2024-04-12", price := 100, scraped_at := 0 },
   { airline := "JetBlue", origin := "JFK", destination := "MIA",
     departure_date := "2024-04-13", price := 200, scraped_at := 1 }]

/-- A strong-buy group: prices `[200, 200, 200, 80]` (avg 170, min 80). -/
def wBuyExample : List Row :=
  [{ airline := "JetBlue", origin := "JFK", destination := "MIA",
     departure_date := "2024-04-12", price := 200, scraped_at := 0 },
   { airline := "JetBlue", origin := "JFK", destination := "MIA",
     departure_date := "2024-04-12", price := 200, scraped_at := 1 },
   { airline := "JetBlue", origin := "JFK", destination := "MIA",
     departure_date := "2024-04-12", price := 200, scraped_at := 2 },
   { airline := "JetBlue", origin := "JFK", destination := "MIA",
     departure_date := "2024-04-12", price := 80, scraped_at := 3 }]

/-- An upstream source that fails (network error) on the base date and
succeeds on every other date. -/
def upstreamFailingOnBase (d : String) : Except String (List UpstreamFlight) :=
  if d = "2024-04-12" then .error "ECONNRESET" else .ok []

/-- A JetBlue candidate fare with a negative price. -/
def negPriceFare : UpstreamFlight :=
  { legs := [{ airline := "JetBlue", departure_time := "06:00",
               arrival_time := "09:00" }], price := some (-5) }

/-- A JetBlue candidate fare with price exactly 0 (falsy in JS). -/
def zeroPriceFare : UpstreamFlight :=
  { legs := [{ airline := "JetBlue", departure_time := "06:00",
               arrival_time := "09:00" }], price := some 0 }

/-- A candidate fare with no legs, hence an empty airline identifier. -/
def emptyAirlineFare : UpstreamFlight :=
  { legs := [], price := some 500 }

/-- A well-priced JetBlue candidate fare. -/
def jbFare : UpstreamFlight :=
  { legs := [{ airline := "JetBlue", departure_time := "06:00",
               arrival_time := "09:00" }], price := some 199 }

/-- An upstream source returning the single JetBlue fare on every date. -/
def upstreamOneJetBlue : String → Except String (List UpstreamFlight) :=
  fun _ => .ok [jbFare]

/-- A valid observation with lower-case airport codes. -/
def obsLower : Row :=
  { airline := "JetBlue", origin := "jfk", destination := "mIa",
    departure_date := "2024-04-12", price := 199, scraped_at := 5 }

instance : IsTotal (String × Row) (fun x y => x.2.price ≤ y.2.price) :=
  ⟨fun a b => le_total a.2.price b.2.price⟩

instance : IsTrans (String × Row) (fun x y => x.2.price ≤ y.2.price) :=
  ⟨fun _ _ _ h1 h2 => le_trans h1 h2⟩

instance : IsTotal Row (fun x y => x.scraped_at ≤ y.scraped_at) :=
  ⟨fun a b => Nat.le_total a.scraped_at b.scraped_at⟩

instance : IsTrans Row (fun x y => x.scraped_at ≤ y.scraped_at) :=
  ⟨fun _ _ _ h1 h2 => Nat.le_trans h1 h2⟩

/-! ## Helper lemmas: upper-casing -/

theorem char_toNat_ofNat {m : ℕ} (h : m < 55296) : (Char.ofNat m).toNat = m := by
  have hv : m.isValidChar := Or.inl h
  simp only [Char.ofNat, dif_pos hv]
  rfl

theorem char_toUpper_idem (c : Char) : c.toUpper.toUpper = c.toUpper := by
  simp only [Char.toUpper]
  by_cases h : c.toNat ≥ 97 ∧ c.toNat ≤ 122
  · have hlt : c.toNat - 32 < 55296 := by omega
    have ht : (Char.ofNat (c.toNat - 32)).toNat = c.toNat - 32 := char_toNat_ofNat hlt
    have hng : ¬ ((Char.ofNat (c.toNat - 32)).toNat ≥ 97 ∧
        (Char.ofNat (c.toNat - 32)).toNat ≤ 122) := by
      rw [ht]; omega
    rw [if_pos h, if_neg hng]
  · rw [if_neg h, if_neg h]

theorem upperStr_idem (s : String) : upperStr (upperStr s) = upperStr s := by
  unfold upperStr
  cases s with
  | mk data => simp [List.map_map, Function.comp_def, char_toUpper_idem]

/-! ## Helper lemmas: rational `min?` and `max?` -/

theorem q_min?_eq_some_iff {a : ℚ} {xs : List ℚ} :
    xs.min? = some a ↔ a ∈ xs ∧ ∀ b ∈ xs, a ≤ b := by
  haveI : Std.Antisymm (fun (x y : ℚ) => x ≤ y) := ⟨fun h h' => le_antisymm h h'⟩
  exact List.min?_eq_some_iff (fun x => le_refl x) (fun x y => min_choice x y)
    (fun x y z => le_min_iff)

theorem q_max?_eq_some_iff {a : ℚ} {xs : List ℚ} :
    xs.max? = some a ↔ a ∈ xs ∧ ∀ b ∈ xs, b ≤ a := by
  haveI : Std.Antisymm (fun (x y : ℚ) => x ≤ y) := ⟨fun h h' => le_antisymm h h'⟩
  exact List.max?_eq_some_iff (fun x => le_refl x) (fun x y => max_choice x y)
    (fun x y z => max_le_iff)

theorem q_min?_isSome {xs : List ℚ} (h : xs ≠ []) : ∃ a, xs.min? = some a := by
  cases xs with
  | nil => exact absurd rfl h
  | cons x xs => exact ⟨xs.foldl min x, rfl⟩

theorem q_max?_isSome {xs : List ℚ} (h : xs ≠ []) : ∃ a, xs.max? = some a := by
  cases xs with
  | nil => exact absurd rfl h
  | cons x xs => exact ⟨xs.foldl max x, rfl⟩

/-- Lists with the same members have the same minimum. -/
theorem q_min?_congr {xs ys : List ℚ} (h : ∀ a, a ∈ xs ↔ a ∈ ys)
    (hx : xs ≠ []) : xs.min? = ys.min? := by
  obtain ⟨a, ha⟩ := q_min?_isSome hx
  rw [ha]
  symm
  rw [q_min?_eq_some_iff]
  rw [q_min?_eq_some_iff] at ha
  exact ⟨(h a).mp ha.1, fun b hb => ha.2 b ((h b).mpr hb)⟩

/-- Lists with the same members have the same maximum. -/
theorem q_max?_congr {xs ys : List ℚ} (h : ∀ a, a ∈ xs ↔ a ∈ ys)
    (hx : xs ≠ []) : xs.max? = ys.max? := by
  obtain ⟨a, ha⟩ := q_max?_isSome hx
  rw [ha]
  symm
  rw [q_max?_eq_some_iff]
  rw [q_max?_eq_some_iff] at ha
  exact ⟨(h a).mp ha.1, fun b hb => ha.2 b ((h b).mpr hb)⟩

/-! ## Helper lemmas: first-occurrence deduplication -/

theorem mem_dedupFirstAux {y : String} :
    ∀ (l seen : List String), y ∈ dedupFirstAux seen l ↔ y ∈ l ∧ y ∉ seen := by
  intro l
  induction l with
  | nil => intro seen; simp [dedupFirstAux]
  | cons x xs ih =>
      intro seen
      by_cases hx : x ∈ seen
      · rw [dedupFirstAux, if_pos hx, ih]
        constructor
        · rintro ⟨h1, h2⟩
          exact ⟨List.mem_cons_of_mem _ h1, h2⟩
        · rintro ⟨h1, h2⟩
          rcases List.mem_cons.mp h1 with rfl | h1
          · exact absurd hx h2
          · exact ⟨h1, h2⟩
      · rw [dedupFirstAux, if_neg hx]
        simp only [List.mem_cons, ih, List.mem_append, List.mem_singleton]
        constructor
        · rintro (rfl | ⟨h1, h2⟩)
          · exact ⟨Or.inl rfl, hx⟩
          · exact ⟨Or.inr h1, fun hc => h2 (Or.inl hc)⟩
        · rintro ⟨rfl | h1, h2⟩
          · exact Or.inl rfl
          · by_cases hyx : y = x
            · exact Or.inl hyx
            · refine Or.inr ⟨h1, fun hc => ?_⟩
              rcases hc with hc | hc | hc
              · exact h2 hc
              · exact hyx hc
              · exact absurd hc (List.not_mem_nil y)

theorem mem_dedupFirst {y : String} {l : List String} :
    y ∈ dedupFirst l ↔ y ∈ l := by
  rw [dedupFirst, mem_dedupFirstAux]
  simp

theorem nodup_dedupFirstAux :
    ∀ (l seen : List String), (dedupFirstAux seen l).Nodup := by
  intro l
  induction l with
  | nil => intro seen; simp [dedupFirstAux]
  | cons x xs ih =>
      intro seen
      by_cases hx : x ∈ seen
      · rw [dedupFirstAux, if_pos hx]; exact ih seen
      · rw [dedupFirstAux, if_neg hx]
        refine List.nodup_cons.mpr ⟨?_, ih (seen ++ [x])⟩
        intro hc
        rcases (mem_dedupFirstAux xs (seen ++ [x])).mp hc with ⟨_, h2⟩
        exact h2 (List.mem_append.mpr (Or.inr (List.mem_singleton.mpr rfl)))

theorem nodup_dedupFirst (l : List String) : (dedupFirst l).Nodup :=
  nodup_dedupFirstAux l []

theorem nodup_uniqueDates (g : List Row) : (uniqueDates g).Nodup :=
  List.Nodup.filter _ (nodup_dedupFirst _)

theorem mem_uniqueDates {d : String} {g : List Row} :
    d ∈ uniqueDates g ↔ d ∈ g.map Row.departure_date ∧ d ≠ "" := by
  unfold uniqueDates
  rw [List.mem_filter, mem_dedupFirst]
  simp

/-- The length of the engine's `uniqueDates` list is the number of distinct
non-empty departure dates of the group. -/
theorem uniqueDates_length (g : List Row) :
    (uniqueDates g).length = distinctNonEmptyDateCount g := by
  rw [distinctNonEmptyDateCount, ← List.toFinset_card_of_nodup (nodup_uniqueDates g)]
  congr 1
  ext d
  rw [List.mem_toFinset, Finset.mem_erase, List.mem_toFinset, mem_uniqueDates]
  tauto

/-! ## Helper lemmas: grouping by airline -/

theorem pushGroup_keys (acc : List (String × List Row)) (r : Row) :
    (pushGroup acc r).map Prod.fst =
      if r.airline ∈ acc.map Prod.fst then acc.map Prod.fst
      else acc.map Prod.fst ++ [r.airline] := by
  induction acc with
  | nil => simp [pushGroup]
  | cons p rest ih =>
      obtain ⟨a, g⟩ := p
      by_cases h : a = r.airline
      · subst h
        simp [pushGroup]
      · rw [pushGroup, if_neg h]
        have hne : ¬ r.airline = a := fun hc => h hc.symm
        simp only [List.map_cons, List.mem_cons, hne, false_or, ih]
        by_cases hm : r.airline ∈ rest.map Prod.fst
        · rw [if_pos hm, if_pos hm]
        · rw [if_neg hm, if_neg hm]
          simp

theorem pushGroup_keys_nodup {acc : List (String × List Row)} (r : Row)
    (h : (acc.map Prod.fst).Nodup) : ((pushGroup acc r).map Prod.fst).Nodup := by
  rw [pushGroup_keys]
  by_cases hm : r.airline ∈ acc.map Prod.fst
  · rw [if_pos hm]; exact h
  · rw [if_neg hm]
    refine List.Nodup.append h (List.nodup_singleton _) ?_
    intro a ha hb
    rw [List.mem_singleton] at hb
    subst hb
    exact hm ha

theorem foldl_pushGroup_keys_nodup :
    ∀ (l : List Row) (acc : List (String × List Row)),
      (acc.map Prod.fst).Nodup → ((l.foldl pushGroup acc).map Prod.fst).Nodup := by
  intro l
  induction l with
  | nil => intro acc h; exact h
  | cons x xs ih => intro acc h; exact ih _ (pushGroup_keys_nodup x h)

theorem groupByAirline_keys_nodup (rows : List Row) :
    ((groupByAirline rows).map Prod.fst).Nodup :=
  foldl_pushGroup_keys_nodup rows [] (by simp)

theorem pushGroup_content {Q : Row → Prop} {acc : List (String × List Row)} {x : Row}
    (hacc : ∀ p ∈ acc, ∀ r ∈ p.2, Q r ∧ r.airline = p.1) (hx : Q x) :
    ∀ p ∈ pushGroup acc x, ∀ r ∈ p.2, Q r ∧ r.airline = p.1 := by
  induction acc with
  | nil =>
      intro p hp r hr
      simp only [pushGroup, List.mem_singleton] at hp
      subst hp
      simp only [List.mem_singleton] at hr
      subst hr
      exact ⟨hx, rfl⟩
  | cons q rest ih =>
      obtain ⟨a, g⟩ := q
      by_cases h : a = x.airline
      · subst h
        intro p hp r hr
        rw [pushGroup, if_pos rfl] at hp
        rcases List.mem_cons.mp hp with rfl | hp
        · rcases List.mem_append.mp hr with hr | hr
          · exact hacc _ (List.mem_cons_self _ _) r hr
          · rw [List.mem_singleton] at hr
            subst hr
            exact ⟨hx, rfl⟩
        · exact hacc _ (List.mem_cons_of_mem _ hp) r hr
      · intro p hp r hr
        rw [pushGroup, if_neg h] at hp
        rcases List.mem_cons.mp hp with rfl | hp
        · exact hacc _ (List.mem_cons_self _ _) r hr
        · exact ih (fun q hq => hacc q (List.mem_cons_of_mem _ hq)) p hp r hr

theorem foldl_pushGroup_content {Q : Row → Prop} :
    ∀ (l : List Row) (acc : List (String × List Row)),
      (∀ p ∈ acc, ∀ r ∈ p.2, Q r ∧ r.airline = p.1) → (∀ r ∈ l, Q r) →
      ∀ p ∈ l.foldl pushGroup acc, ∀ r ∈ p.2, Q r ∧ r.airline = p.1 := by
  intro l
  induction l with
  | nil => intro acc hacc _; exact hacc
  | cons x xs ih =>
      intro acc hacc hl
      exact ih _ (pushGroup_content hacc (hl x (List.mem_cons_self _ _)))
        (fun r hr => hl r (List.mem_cons_of_mem _ hr))

/-- Every member of an airline group is an observation of the window
carrying that airline name. -/
theorem groupByAirline_content (rows : List Row) :
    ∀ p ∈ groupByAirline rows, ∀ r ∈ p.2, r ∈ rows ∧ r.airline = p.1 :=
  foldl_pushGroup_content rows [] (by simp) (fun _ hr => hr)

theorem pushGroup_ne_nil {acc : List (String × List Row)} {x : Row}
    (hacc : ∀ p ∈ acc, p.2 ≠ []) : ∀ p ∈ pushGroup acc x, p.2 ≠ [] := by
  induction acc with
  | nil =>
      intro p hp
      simp only [pushGroup, List.mem_singleton] at hp
      subst hp
      simp
  | cons q rest ih =>
      obtain ⟨a, g⟩ := q
      by_cases h : a = x.airline
      · subst h
        intro p hp
        rw [pushGroup, if_pos rfl] at hp
        rcases List.mem_cons.mp hp with rfl | hp
        · simp
        · exact hacc _ (List.mem_cons_of_mem _ hp)
      · intro p hp
        rw [pushGroup, if_neg h] at hp
        rcases List.mem_cons.mp hp with rfl | hp
        · exact hacc _ (List.mem_cons_self _ _)
        · exact ih (fun q hq => hacc q (List.mem_cons_of_mem _ hq)) p hp

theorem foldl_pushGroup_ne_nil :
    ∀ (l : List Row) (acc : List (String × List Row)),
      (∀ p ∈ acc, p.2 ≠ []) → ∀ p ∈ l.foldl pushGroup acc, p.2 ≠ [] := by
  intro l
  induction l with
  | nil => intro acc hacc; exact hacc
  | cons x xs ih => intro acc hacc; exact ih _ (pushGroup_ne_nil hacc)

theorem groupByAirline_ne_nil (rows : List Row) :
    ∀ p ∈ groupByAirline rows, p.2 ≠ [] :=
  foldl_pushGroup_ne_nil rows [] (by simp)

theorem groupByAirline_rows_ne_nil {rows : List Row} {p : String × List Row}
    (h : p ∈ groupByAirline rows) : rows ≠ [] := by
  intro hc
  subst hc
  simp [groupByAirline] at h

/-- In an association list with distinct keys, a key determines its value. -/
theorem assoc_eq_of_nodup {α β : Type} {L : List (α × β)}
    (h : (L.map Prod.fst).Nodup) {a : α} {g g' : β}
    (h1 : (a, g) ∈ L) (h2 : (a, g') ∈ L) : g = g' := by
  induction L with
  | nil => simp at h1
  | cons q rest ih =>
      obtain ⟨b, c⟩ := q
      simp only [List.map_cons, List.nodup_cons] at h
      rcases List.mem_cons.mp h1 with he1 | h1
      · rcases List.mem_cons.mp h2 with he2 | h2
        · rw [Prod.mk.injEq] at he1 he2
          rw [he1.2, he2.2]
        · exfalso
          rw [Prod.mk.injEq] at he1
          apply h.1
          rw [← he1.1]
          exact List.mem_map.mpr ⟨(a, g'), h2, rfl⟩
      · rcases List.mem_cons.mp h2 with he2 | h2
        · exfalso
          rw [Prod.mk.injEq] at he2
          apply h.1
          rw [← he2.1]
          exact List.mem_map.mpr ⟨(a, g), h1, rfl⟩
        · exact ih h.2 h1 h2

/-! ## Helper lemmas: the `cheapestByDate` table -/

theorem cheapestByDate_append (l : List Row) (f : Row) :
    cheapestByDate (l ++ [f]) = insertCheapest (cheapestByDate l) f := by
  unfold cheapestByDate
  rw [List.foldl_append]
  rfl

theorem insertCheapest_of_not_mem_keys {acc : List (String × Row)} {f : Row}
    (h : f.departure_date ∉ acc.map Prod.fst) :
    insertCheapest acc f = acc ++ [(f.departure_date, f)] := by
  induction acc with
  | nil => rfl
  | cons e rest ih =>
      obtain ⟨d, r⟩ := e
      simp only [List.map_cons, List.mem_cons] at h
      push_neg at h
      rw [insertCheapest, if_neg (fun hc => h.1 hc.symm), ih h.2]
      rfl

theorem insertCheapest_of_mem_keys {acc : List (String × Row)} {f : Row}
    (h : f.departure_date ∈ acc.map Prod.fst) :
    ∃ pre r₀ post, acc = pre ++ (f.departure_date, r₀) :: post ∧
      insertCheapest acc f =
        pre ++ (f.departure_date, if f.price < r₀.price then f else r₀) :: post ∧
      f.departure_date ∉ pre.map Prod.fst := by
  induction acc with
  | nil => simp at h
  | cons e rest ih =>
      obtain ⟨d, r⟩ := e
      by_cases hd : d = f.departure_date
      · subst hd
        refine ⟨[], r, rest, by simp, ?_, by simp⟩
        rw [insertCheapest, if_pos rfl]
        by_cases hp : f.price < r.price
        · rw [if_pos hp, if_pos hp]
          simp
        · rw [if_neg hp, if_neg hp]
          simp
      · have h' : f.departure_date ∈ rest.map Prod.fst := by
          simp only [List.map_cons, List.mem_cons] at h
          rcases h with hc | hc
          · exact absurd hc.symm hd
          · exact hc
        obtain ⟨pre, r₀, post, hacc, hres, hpre⟩ := ih h'
        refine ⟨(d, r) :: pre, r₀, post, by rw [hacc]; rfl, ?_, ?_⟩
        · rw [insertCheapest, if_neg hd, hres]
          rfl
        · simp only [List.map_cons, List.mem_cons]
          push_neg
          exact ⟨fun hc => hd hc.symm, hpre⟩

/-- The three facts the flex loop relies on: `cheapestByDate` has one entry
per distinct `departure_date` of the group (distinct keys), and each entry
holds an observation of the group on that date of minimal price. -/
theorem cheapestByDate_invariant (g : List Row) :
    ((cheapestByDate g).map Prod.fst).Nodup ∧
    (∀ d, d ∈ (cheapestByDate g).map Prod.fst ↔ d ∈ g.map Row.departure_date) ∧
    (∀ e ∈ cheapestByDate g, e.2 ∈ g ∧ e.2.departure_date = e.1 ∧
       ∀ f ∈ g, f.departure_date = e.1 → e.2.price ≤ f.price) := by
  induction g using List.reverseRecOn with
  | nil => simp [cheapestByDate]
  | append_singleton l f ih =>
      obtain ⟨ihN, ihK, ihC⟩ := ih
      rw [cheapestByDate_append]
      by_cases hmem : f.departure_date ∈ (cheapestByDate l).map Prod.fst
      · obtain ⟨pre, r₀, post, hacc, hres, hpre⟩ := insertCheapest_of_mem_keys hmem
        have hkeys : (insertCheapest (cheapestByDate l) f).map Prod.fst =
            (cheapestByDate l).map Prod.fst := by
          rw [hres, hacc]
          simp
        have hr₀ : (f.departure_date, r₀) ∈ cheapestByDate l := by
          rw [hacc]
          exact List.mem_append.mpr (Or.inr (List.mem_cons_self _ _))
        have hpost : f.departure_date ∉ post.map Prod.fst := by
          have := ihN
          rw [hacc] at this
          simp only [List.map_append, List.map_cons] at this
          have h2 := (List.nodup_append.mp this).2.1
          exact (List.nodup_cons.mp h2).1
        refine ⟨by rw [hkeys]; exact ihN, ?_, ?_⟩
        · intro d
          rw [hkeys, ihK]
          simp only [List.map_append, List.map_cons, List.map_nil, List.mem_append,
            List.mem_singleton]
          constructor
          · exact Or.inl
          · rintro (hd | rfl)
            · exact hd
            · rw [← ihK]
              exact hmem
        · intro e he
          rw [hres] at he
          have hsplit : e ∈ pre ∨ e = (f.departure_date,
              if f.price < r₀.price then f else r₀) ∨ e ∈ post := by
            rcases List.mem_append.mp he with h1 | h1
            · exact Or.inl h1
            · rcases List.mem_cons.mp h1 with h1 | h1
              · exact Or.inr (Or.inl h1)
              · exact Or.inr (Or.inr h1)
          have hold : e ∈ pre ∨ e ∈ post → e.2 ∈ l ++ [f] ∧ e.2.departure_date = e.1 ∧
              ∀ f' ∈ l ++ [f], f'.departure_date = e.1 → e.2.price ≤ f'.price := by
            intro hp
            have heA : e ∈ cheapestByDate l := by
              rw [hacc]
              rcases hp with hp | hp
              · exact List.mem_append.mpr (Or.inl hp)
              · exact List.mem_append.mpr (Or.inr (List.mem_cons_of_mem _ hp))
            obtain ⟨hm, hdep, hmin⟩ := ihC e heA
            have hne : e.1 ≠ f.departure_date := by
              intro hc
              rcases hp with hp | hp
              · exact hpre (hc ▸ List.mem_map.mpr ⟨e, hp, rfl⟩)
              · exact hpost (hc ▸ List.mem_map.mpr ⟨e, hp, rfl⟩)
            refine ⟨List.mem_append.mpr (Or.inl hm), hdep, ?_⟩
            intro f' hf' hdf'
            rcases List.mem_append.mp hf' with hf' | hf'
            · exact hmin f' hf' hdf'
            · rw [List.mem_singleton] at hf'
              subst hf'
              exact absurd hdf' (fun hc => hne hc.symm)
          rcases hsplit with hp | hp | hp
          · exact hold (Or.inl hp)
          · obtain ⟨hm₀, hdep₀, hmin₀⟩ := ihC _ hr₀
            subst hp
            by_cases hlt : f.price < r₀.price
            · rw [if_pos hlt]
              refine ⟨List.mem_append.mpr (Or.inr (List.mem_singleton.mpr rfl)), rfl, ?_⟩
              intro f' hf' hdf'
              rcases List.mem_append.mp hf' with hf' | hf'
              · exact le_of_lt (lt_of_lt_of_le hlt (hmin₀ f' hf' hdf'))
              · rw [List.mem_singleton] at hf'
                subst hf'
                exact le_refl _
            · rw [if_neg hlt]
              refine ⟨List.mem_append.mpr (Or.inl hm₀), hdep₀, ?_⟩
              intro f' hf' hdf'
              rcases List.mem_append.mp hf' with hf' | hf'
              · exact hmin₀ f' hf' hdf'
              · rw [List.mem_singleton] at hf'
                subst hf'
                exact le_of_not_lt hlt
          · exact hold (Or.inr hp)
      · rw [insertCheapest_of_not_mem_keys hmem]
        refine ⟨?_, ?_, ?_⟩
        · rw [List.map_append]
          refine List.Nodup.append ihN (by simp) ?_
          intro d hd hd'
          simp only [List.map_cons, List.map_nil, List.mem_singleton] at hd'
          subst hd'
          exact hmem hd
        · intro d
          simp only [List.map_append, List.mem_append, ihK, List.map_cons, List.map_nil,
            List.mem_singleton]
        · intro e he
          rcases List.mem_append.mp he with he | he
          · obtain ⟨hm, hdep, hmin⟩ := ihC e he
            have hne : e.1 ≠ f.departure_date := by
              intro hc
              exact hmem (hc ▸ List.mem_map.mpr ⟨e, he, rfl⟩)
            refine ⟨List.mem_append.mpr (Or.inl hm), hdep, ?_⟩
            intro f' hf' hdf'
            rcases List.mem_append.mp hf' with hf' | hf'
            · exact hmin f' hf' hdf'
            · rw [List.mem_singleton] at hf'
              subst hf'
              exact absurd hdf' (fun hc => hne hc.symm)
          · rw [List.mem_singleton] at he
            subst he
            refine ⟨List.mem_append.mpr (Or.inr (List.mem_singleton.mpr rfl)), rfl, ?_⟩
            intro f' hf' hdf'
            have hdd : f'.departure_date = f.departure_date := hdf'
            rcases List.mem_append.mp hf' with hf' | hf'
            · exfalso
              apply hmem
              apply (ihK f.departure_date).mpr
              rw [← hdd]
              exact List.mem_map.mpr ⟨f', hf', rfl⟩
            · rw [List.mem_singleton] at hf'
              subst hf'
              exact le_refl _

theorem cheapestByDate_keys_nodup (g : List Row) :
    ((cheapestByDate g).map Prod.fst).Nodup := (cheapestByDate_invariant g).1

theorem cheapestByDate_mem_keys {g : List Row} {d : String} :
    d ∈ (cheapestByDate g).map Prod.fst ↔ d ∈ g.map Row.departure_date :=
  (cheapestByDate_invariant g).2.1 d

theorem cheapestByDate_entry {g : List Row} {e : String × Row}
    (he : e ∈ cheapestByDate g) :
    e.2 ∈ g ∧ e.2.departure_date = e.1 ∧
      ∀ f ∈ g, f.departure_date = e.1 → e.2.price ≤ f.price :=
  (cheapestByDate_invariant g).2.2 e he

/-- Each `cheapestByDate` entry's price is the spec-side per-date minimum. -/
theorem cheapestByDate_price {g : List Row} {e : String × Row}
    (he : e ∈ cheapestByDate g) : e.2.price = minPriceOnDate g e.1 := by
  obtain ⟨hm, hdep, hmin⟩ := cheapestByDate_entry he
  have hmem : e.2.price ∈ (g.filter (fun f => f.departure_date = e.1)).map Row.price :=
    List.mem_map.mpr ⟨e.2, List.mem_filter.mpr ⟨hm, by simp [hdep]⟩, rfl⟩
  have hsome : ((g.filter (fun f => f.departure_date = e.1)).map Row.price).min? =
      some e.2.price := by
    rw [q_min?_eq_some_iff]
    refine ⟨hmem, ?_⟩
    intro b hb
    obtain ⟨f', hf', rfl⟩ := List.mem_map.mp hb
    obtain ⟨hf'g, hf'd⟩ := List.mem_filter.mp hf'
    exact hmin f' hf'g (by simpa using hf'd)
  rw [minPriceOnDate, hsome]
  rfl

/-- The engine's per-date cheapest prices and the spec-side ones have the
same members (hence equal minima and maxima). -/
theorem perDate_mem_iff {g : List Row} {p : ℚ} :
    p ∈ perDateCheapestPrices g ↔ p ∈ perDateMinPrices g := by
  unfold perDateCheapestPrices perDateMinPrices
  constructor
  · intro hp
    obtain ⟨e, he, rfl⟩ := List.mem_map.mp hp
    refine List.mem_map.mpr ⟨e.1, ?_, (cheapestByDate_price he).symm⟩
    rw [mem_dedupFirst]
    exact cheapestByDate_mem_keys.mp (List.mem_map.mpr ⟨e, he, rfl⟩)
  · intro hp
    obtain ⟨d, hd, rfl⟩ := List.mem_map.mp hp
    rw [mem_dedupFirst] at hd
    have : d ∈ (cheapestByDate g).map Prod.fst := cheapestByDate_mem_keys.mpr hd
    obtain ⟨e, he, rfl⟩ := List.mem_map.mp this
    exact List.mem_map.mpr ⟨e, he, cheapestByDate_price he⟩

theorem cheapestByDate_ne_nil {g : List Row} (hg : g ≠ []) :
    cheapestByDate g ≠ [] := by
  obtain ⟨r, hr⟩ := List.exists_mem_of_ne_nil g hg
  intro hc
  have : r.departure_date ∈ (cheapestByDate g).map Prod.fst :=
    cheapestByDate_mem_keys.mpr (List.mem_map.mpr ⟨r, hr, rfl⟩)
  rw [hc] at this
  simp at this

/-- The flex guard gives at least as many `cheapestByDate` entries as
distinct non-empty dates. -/
theorem uniqueDates_length_le (g : List Row) :
    (uniqueDates g).length ≤ (cheapestByDate g).length := by
  have hsub : ∀ d ∈ uniqueDates g, d ∈ (cheapestByDate g).map Prod.fst := by
    intro d hd
    exact cheapestByDate_mem_keys.mpr (mem_uniqueDates.mp hd).1
  have h1 : (uniqueDates g).toFinset.card ≤
      ((cheapestByDate g).map Prod.fst).toFinset.card := by
    apply Finset.card_le_card
    intro d hd
    rw [List.mem_toFinset] at hd ⊢
    exact hsub d hd
  rw [List.toFinset_card_of_nodup (nodup_uniqueDates g),
    List.toFinset_card_of_nodup (cheapestByDate_keys_nodup g)] at h1
  simpa using h1

/-! ## Helper lemmas: sorting the per-date entries by price -/

theorem sortDatesByPrice_perm (l : List (String × Row)) :
    (sortDatesByPrice l).Perm l :=
  List.perm_insertionSort _ l

theorem sortDatesByPrice_sorted (l : List (String × Row)) :
    List.Sorted (fun x y => x.2.price ≤ y.2.price) (sortDatesByPrice l) :=
  List.sorted_insertionSort _ l

theorem sortDatesByPrice_ne_nil {l : List (String × Row)} (h : l ≠ []) :
    sortDatesByPrice l ≠ [] := by
  intro hc
  apply h
  have := (sortDatesByPrice_perm l).length_eq
  rw [hc] at this
  exact List.length_eq_zero.mp this.symm

/-- The head of the price-sorted per-date list realises the minimum of the
per-date cheapest prices. -/
theorem sortDatesByPrice_head_min {l : List (String × Row)} (h : l ≠ []) :
    ∃ c, (sortDatesByPrice l).head? = some c ∧
      (l.map (fun e => e.2.price)).min? = some c.2.price := by
  obtain ⟨c, t, hs⟩ := List.exists_cons_of_ne_nil (sortDatesByPrice_ne_nil h)
  refine ⟨c, by rw [hs]; rfl, ?_⟩
  rw [q_min?_eq_some_iff]
  have hcm : c ∈ l := (sortDatesByPrice_perm l).subset (hs ▸ List.mem_cons_self c t)
  refine ⟨List.mem_map.mpr ⟨c, hcm, rfl⟩, ?_⟩
  intro b hb
  obtain ⟨y, hy, rfl⟩ := List.mem_map.mp hb
  have hy' : y ∈ sortDatesByPrice l := (sortDatesByPrice_perm l).mem_iff.mpr hy
  rw [hs] at hy'
  rcases List.mem_cons.mp hy' with rfl | hy'
  · exact le_refl _
  · have hsort := sortDatesByPrice_sorted l
    rw [hs, List.sorted_cons] at hsort
    exact hsort.1 y hy'

/-- In a price-sorted list, the last element bounds every member from
above. -/
theorem sorted_le_getLast? :
    ∀ (s : List (String × Row)),
      List.Sorted (fun x y => x.2.price ≤ y.2.price) s →
      ∀ m, s.getLast? = some m → ∀ y ∈ s, y.2.price ≤ m.2.price := by
  intro s
  induction s with
  | nil => intro _ m hm; simp at hm
  | cons a t ih =>
      intro hsort m hm y hy
      rw [List.sorted_cons] at hsort
      cases t with
      | nil =>
          simp only [List.getLast?_singleton, Option.some_inj] at hm
          subst hm
          rcases List.mem_cons.mp hy with rfl | hy
          · exact le_refl _
          · simp at hy
      | cons b t' =>
          rw [List.getLast?_cons_cons] at hm
          rcases List.mem_cons.mp hy with rfl | hy
          · exact le_trans (hsort.1 b (List.mem_cons_self _ _))
              (ih hsort.2 m hm b (List.mem_cons_self _ _))
          · exact ih hsort.2 m hm y hy

/-- The last element of the price-sorted per-date list realises the maximum
of the per-date cheapest prices. -/
theorem sortDatesByPrice_getLast_max {l : List (String × Row)} (h : l ≠ []) :
    ∃ m, (sortDatesByPrice l).getLast? = some m ∧
      (l.map (fun e => e.2.price)).max? = some m.2.price := by
  have hne := sortDatesByPrice_ne_nil h
  have hlast : (sortDatesByPrice l).getLast? = some ((sortDatesByPrice l).getLast hne) :=
    List.getLast?_eq_getLast _ hne
  refine ⟨(sortDatesByPrice l).getLast hne, hlast, ?_⟩
  rw [q_max?_eq_some_iff]
  have hmm : (sortDatesByPrice l).getLast hne ∈ sortDatesByPrice l :=
    List.getLast_mem hne
  refine ⟨List.mem_map.mpr ⟨_, (sortDatesByPrice_perm l).subset hmm, rfl⟩, ?_⟩
  intro b hb
  obtain ⟨y, hy, rfl⟩ := List.mem_map.mp hb
  have hy' : y ∈ sortDatesByPrice l := (sortDatesByPrice_perm l).mem_iff.mpr hy
  exact sorted_le_getLast? _ (sortDatesByPrice_sorted l) _ hlast y hy'

/-- With at least two entries and distinct keys, the head and the last of
the price-sorted list carry different dates. -/
theorem sortDatesByPrice_head_ne_getLast {l : List (String × Row)}
    (hN : (l.map Prod.fst).Nodup) (h2 : 2 ≤ l.length) {c m : String × Row}
    (hc : (sortDatesByPrice l).head? = some c)
    (hm : (sortDatesByPrice l).getLast? = some m) : c.1 ≠ m.1 := by
  have hperm := sortDatesByPrice_perm l
  have hN' : ((sortDatesByPrice l).map Prod.fst).Nodup :=
    (List.Perm.nodup_iff (hperm.map Prod.fst)).mpr hN
  have hlen : 2 ≤ (sortDatesByPrice l).length := hperm.length_eq ▸ h2
  have hlne : l ≠ [] := by
    intro hc'
    rw [hc'] at h2
    simp at h2
  obtain ⟨a, t, hs⟩ := List.exists_cons_of_ne_nil (sortDatesByPrice_ne_nil hlne)
  rw [hs] at hc hm hN' hlen
  have hac : a = c := by
    simpa using hc
  subst hac
  have htne : t ≠ [] := by
    intro hc'
    rw [hc'] at hlen
    simp at hlen
  have hmt : m ∈ t := by
    cases t with
    | nil => exact absurd rfl htne
    | cons b t' =>
        rw [List.getLast?_cons_cons] at hm
        have hgl := List.getLast?_eq_getLast (b :: t') (by simp)
        rw [hgl] at hm
        have hmem := List.getLast_mem (l := b :: t') (by simp)
        rwa [Option.some_inj.mp hm] at hmem
  rw [List.map_cons, List.nodup_cons] at hN'
  intro hcm
  apply hN'.1
  rw [hcm]
  exact List.mem_map.mpr ⟨m, hmt, rfl⟩

/-! ## Helper lemmas: the flex decision -/

theorem perDateCheapestPrices_ne_nil {g : List Row} (hg : g ≠ []) :
    perDateCheapestPrices g ≠ [] := by
  unfold perDateCheapestPrices
  simpa using cheapestByDate_ne_nil hg

theorem perDateMin_eq (g : List Row) (hg : g ≠ []) :
    (perDateMinPrices g).min? = (perDateCheapestPrices g).min? ∧
      (perDateMinPrices g).max? = (perDateCheapestPrices g).max? := by
  constructor
  · exact (q_min?_congr (fun a => perDate_mem_iff) (perDateCheapestPrices_ne_nil hg)).symm
  · exact (q_max?_congr (fun a => perDate_mem_iff) (perDateCheapestPrices_ne_nil hg)).symm

/-- Full characterisation of the flex decision for a non-empty group:
an insight is produced exactly when there are at least two distinct
non-empty departure dates and the spread of the per-date cheapest prices
exceeds 20; the produced price is the cheapest per-date price and the
savings is the spread. -/
theorem flexData_spec (g : List Row) (hg : g ≠ []) :
    (∀ pr sv, flexData g = some (pr, sv) →
        2 ≤ (uniqueDates g).length ∧ 20 < sv ∧ sv = flexSavings g ∧
        pr = ((perDateMinPrices g).min?).getD 0) ∧
    (2 ≤ (uniqueDates g).length → 20 < flexSavings g →
        flexData g = some (((perDateMinPrices g).min?).getD 0, flexSavings g)) := by
  have hAne := cheapestByDate_ne_nil hg
  obtain ⟨c, hc, hcmin⟩ := sortDatesByPrice_head_min hAne
  obtain ⟨m, hm, hmmax⟩ := sortDatesByPrice_getLast_max hAne
  have hminP : (perDateMinPrices g).min? = some c.2.price := by
    rw [(perDateMin_eq g hg).1]
    exact hcmin
  have hmaxP : (perDateMinPrices g).max? = some m.2.price := by
    rw [(perDateMin_eq g hg).2]
    exact hmmax
  have hsav : flexSavings g = m.2.price - c.2.price := by
    rw [flexSavings, hminP, hmaxP]
    rfl
  have hprv : ((perDateMinPrices g).min?).getD 0 = c.2.price := by
    rw [hminP]
    rfl
  constructor
  · intro pr sv hsome
    rw [flexData] at hsome
    by_cases h1 : (uniqueDates g).length ≤ 1
    · rw [if_pos h1] at hsome
      exact absurd hsome (by simp)
    · rw [if_neg h1] at hsome
      simp only [hc, hm] at hsome
      by_cases hne : c.1 ≠ m.1
      · rw [if_pos hne] at hsome
        by_cases hgt : m.2.price - c.2.price > 20
        · rw [if_pos hgt] at hsome
          obtain ⟨hpr, hsv⟩ := Prod.mk.injEq .. ▸ Option.some_inj.mp hsome
          refine ⟨by omega, ?_, ?_, ?_⟩
          · rw [hsv] at hgt
            exact hgt
          · rw [← hsv, hsav]
          · rw [← hpr, hprv]
        · rw [if_neg hgt] at hsome
          exact absurd hsome (by simp)
      · rw [if_neg hne] at hsome
        exact absurd hsome (by simp)
  · intro h2 hgt
    rw [flexData, if_neg (by omega)]
    simp only [hc, hm]
    have hlen2 : 2 ≤ (cheapestByDate g).length :=
      le_trans h2 (uniqueDates_length_le g)
    have hne : c.1 ≠ m.1 :=
      sortDatesByPrice_head_ne_getLast (cheapestByDate_keys_nodup g) hlen2 hc hm
    rw [if_pos hne, if_pos (by rw [hsav] at hgt; exact hgt)]
    rw [hprv, hsav]

/-! ## Helper lemmas: the two insight passes -/

theorem airlineInsight_type (idv : ℕ) (a : String) (g : List Row) :
    (airlineInsight idv a g).type = .buy ∨ (airlineInsight idv a g).type = .wait := by
  unfold airlineInsight
  split_ifs <;> simp

theorem airlineInsight_type_ne_flex (idv : ℕ) (a : String) (g : List Row) :
    (airlineInsight idv a g).type ≠ .flex := by
  rcases airlineInsight_type idv a g with h | h <;> rw [h] <;> simp

theorem airlineInsight_airline (idv : ℕ) (a : String) (g : List Row) :
    (airlineInsight idv a g).airline = a := by
  unfold airlineInsight
  split_ifs <;> rfl

theorem bestPricePass_length (c : ℕ) (gs : List (String × List Row)) :
    (bestPricePass c gs).length = gs.length := by
  induction gs generalizing c with
  | nil => rfl
  | cons p rest ih =>
      obtain ⟨a, g⟩ := p
      rw [bestPricePass]
      simp [ih]

theorem bestPricePass_ids (c : ℕ) (gs : List (String × List Row)) :
    (bestPricePass c gs).map Insight.id = List.range' c gs.length := by
  induction gs generalizing c with
  | nil => rfl
  | cons p rest ih =>
      obtain ⟨a, g⟩ := p
      rw [bestPricePass, List.length_cons, List.range'_succ, List.map_cons, ih]
      congr 1
      unfold airlineInsight
      split_ifs <;> rfl

theorem bestPricePass_types (c : ℕ) (gs : List (String × List Row)) :
    ∀ ins ∈ bestPricePass c gs, ins.type ≠ .flex := by
  induction gs generalizing c with
  | nil => intro ins h; simp [bestPricePass] at h
  | cons p rest ih =>
      obtain ⟨a, g⟩ := p
      intro ins h
      rw [bestPricePass] at h
      rcases List.mem_cons.mp h with rfl | h
      · exact airlineInsight_type_ne_flex _ _ _
      · exact ih _ ins h

theorem bestPricePass_mem {gs : List (String × List Row)} {a : String} {g : List Row}
    (h : (a, g) ∈ gs) (c : ℕ) : ∃ k, airlineInsight k a g ∈ bestPricePass c gs := by
  induction gs generalizing c with
  | nil => simp at h
  | cons p rest ih =>
      obtain ⟨b, g'⟩ := p
      rcases List.mem_cons.mp h with he | h
      · rw [Prod.mk.injEq] at he
        refine ⟨c, ?_⟩
        rw [he.1, he.2, bestPricePass]
        exact List.mem_cons_self _ _
      · obtain ⟨k, hk⟩ := ih h (c + 1)
        exact ⟨k, by rw [bestPricePass]; exact List.mem_cons_of_mem _ hk⟩

theorem flexPass_ids (c : ℕ) (gs : List (String × List Row)) :
    (flexPass c gs).map Insight.id = List.range' c (flexPass c gs).length := by
  induction gs generalizing c with
  | nil => rfl
  | cons p rest ih =>
      obtain ⟨a, g⟩ := p
      rw [flexPass]
      cases hf : flexData g with
      | none => exact ih c
      | some pv =>
          obtain ⟨pr, sv⟩ := pv
          simp only [List.map_cons, List.length_cons, List.range'_succ, ih (c + 1)]

theorem flexPass_types (c : ℕ) (gs : List (String × List Row)) :
    ∀ ins ∈ flexPass c gs, ins.type = .flex := by
  induction gs generalizing c with
  | nil => intro ins h; simp [flexPass] at h
  | cons p rest ih =>
      obtain ⟨a, g⟩ := p
      intro ins h
      rw [flexPass] at h
      cases hf : flexData g with
      | none =>
          rw [hf] at h
          exact ih c ins h
      | some pv =>
          obtain ⟨pr, sv⟩ := pv
          rw [hf] at h
          rcases List.mem_cons.mp h with rfl | h
          · rfl
          · exact ih (c + 1) ins h

theorem flexPass_mem_intro {gs : List (String × List Row)} {a : String} {g : List Row}
    (h : (a, g) ∈ gs) {pr sv : ℚ} (hf : flexData g = some (pr, sv)) (c : ℕ) :
    ∃ k, (Insight.mk k .flex ("Cheaper " ++ a ++ " Date") a pr (some sv)) ∈
      flexPass c gs := by
  induction gs generalizing c with
  | nil => simp at h
  | cons p rest ih =>
      obtain ⟨b, g'⟩ := p
      rcases List.mem_cons.mp h with he | h
      · rw [Prod.mk.injEq] at he
        obtain ⟨rfl, rfl⟩ := he
        refine ⟨c, ?_⟩
        rw [flexPass, hf]
        exact List.mem_cons_self _ _
      · cases hf' : flexData g' with
        | none =>
            obtain ⟨k, hk⟩ := ih h c
            exact ⟨k, by rw [flexPass, hf']; exact hk⟩
        | some pv =>
            obtain ⟨pr', sv'⟩ := pv
            obtain ⟨k, hk⟩ := ih h (c + 1)
            exact ⟨k, by rw [flexPass, hf']; exact List.mem_cons_of_mem _ hk⟩

theorem flexPass_mem_elim {gs : List (String × List Row)} {c : ℕ} {ins : Insight}
    (h : ins ∈ flexPass c gs) :
    ∃ a g pr sv, (a, g) ∈ gs ∧ flexData g = some (pr, sv) ∧ ins.airline = a ∧
      ins.type = .flex ∧ ins.price = pr ∧ ins.savings = some sv := by
  induction gs generalizing c with
  | nil => simp [flexPass] at h
  | cons p rest ih =>
      obtain ⟨b, g'⟩ := p
      rw [flexPass] at h
      cases hf : flexData g' with
      | none =>
          rw [hf] at h
          obtain ⟨a, g, pr, sv, h1, h2, h3, h4, h5, h6⟩ := ih h
          exact ⟨a, g, pr, sv, List.mem_cons_of_mem _ h1, h2, h3, h4, h5, h6⟩
      | some pv =>
          obtain ⟨pr', sv'⟩ := pv
          rw [hf] at h
          rcases List.mem_cons.mp h with rfl | h
          · exact ⟨b, g', pr', sv', List.mem_cons_self _ _, hf, rfl, rfl, rfl, rfl⟩
          · obtain ⟨a, g, pr, sv, h1, h2, h3, h4, h5, h6⟩ := ih h
            exact ⟨a, g, pr, sv, List.mem_cons_of_mem _ h1, h2, h3, h4, h5, h6⟩

theorem deriveInsights_eq {rows : List Row} (h : rows ≠ []) :
    deriveInsights rows =
      bestPricePass 1 (groupByAirline rows) ++
        flexPass (1 + (groupByAirline rows).length) (groupByAirline rows) := by
  rw [deriveInsights, if_neg (by simpa using h)]

/-! ## Claim C1: per-airline best-price classification -/

/-- C1: for every airline group of the non-empty queried window (whose
observations carry positive prices, as the data model specifies), with
`minPrice` the minimum price and `avgPrice` the rounded mean, the engine
emits for that group a buy insight titled "Strong Buy Recommendation" when
`minPrice < 0.9·avgPrice`, a wait insight titled "Hold / Wait" when
`minPrice > 1.1·avgPrice`, and otherwise a buy insight titled "Best Price
Found"; ties at exactly `0.9·avgPrice` or `1.1·avgPrice` land in the
otherwise branch (third conjunct, whose hypotheses allow equality). -/
theorem bestPriceClassification (rows : List Row) (a : String) (g : List Row)
    (h : (a, g) ∈ groupByAirline rows) (hpos : ∀ r ∈ g, 0 < r.price) :
    (minPrice g < (avgPrice g : ℚ) * (9 / 10) →
        ∃ ins ∈ deriveInsights rows, ins.airline = a ∧ ins.type = .buy ∧
          ins.title = "Strong Buy Recommendation") ∧
    ((avgPrice g : ℚ) * (11 / 10) < minPrice g →
        ∃ ins ∈ deriveInsights rows, ins.airline = a ∧ ins.type = .wait ∧
          ins.title = "Hold / Wait") ∧
    ((avgPrice g : ℚ) * (9 / 10) ≤ minPrice g →
        minPrice g ≤ (avgPrice g : ℚ) * (11 / 10) →
        ∃ ins ∈ deriveInsights rows, ins.airline = a ∧ ins.type = .buy ∧
          ins.title = "Best Price Found") := by
  have hrows : rows ≠ [] := groupByAirline_rows_ne_nil h
  have hgne : g ≠ [] := groupByAirline_ne_nil rows (a, g) h
  obtain ⟨k, hk⟩ := bestPricePass_mem h 1
  have hmem : airlineInsight k a g ∈ deriveInsights rows := by
    rw [deriveInsights_eq hrows]
    exact List.mem_append.mpr (Or.inl hk)
  have havg : (0 : ℚ) ≤ (avgPrice g : ℚ) := by
    have hsum : 0 < (g.map Row.price).sum := by
      apply List.sum_pos
      · intro x hx
        obtain ⟨r, hr, rfl⟩ := List.mem_map.mp hx
        exact hpos r hr
      · simpa using hgne
    have hq : (0 : ℚ) < (g.map Row.price).sum / (g.length : ℚ) := by
      apply div_pos hsum
      have : 0 < g.length := List.length_pos.mpr hgne
      exact_mod_cast this
    have : (0 : ℤ) ≤ avgPrice g := by
      rw [avgPrice, round_eq]
      rw [Int.le_floor]
      push_cast
      linarith
    exact_mod_cast this
  refine ⟨?_, ?_, ?_⟩
  · intro hc
    refine ⟨airlineInsight k a g, hmem, airlineInsight_airline k a g, ?_⟩
    unfold airlineInsight
    rw [if_pos hc]
    exact ⟨rfl, rfl⟩
  · intro hc
    have hnc : ¬ (minPrice g < (avgPrice g : ℚ) * (9 / 10)) := by
      intro hc'
      nlinarith
    refine ⟨airlineInsight k a g, hmem, airlineInsight_airline k a g, ?_⟩
    unfold airlineInsight
    rw [if_neg hnc, if_pos hc]
    exact ⟨rfl, rfl⟩
  · intro h1 h2
    refine ⟨airlineInsight k a g, hmem, airlineInsight_airline k a g, ?_⟩
    unfold airlineInsight
    rw [if_neg (not_lt.mpr h1), if_neg (not_lt.mpr h2)]
    exact ⟨rfl, rfl⟩

/-- C1 witness: the spec's concrete example — prices `[200, 200, 200, 80]`
give avg 170, min 80, and `80 < 153` yields a "Strong Buy Recommendation". -/
theorem bestPriceClassification_witness :
    ∃ ins ∈ deriveInsights wBuyExample, ins.airline = "JetBlue" ∧
      ins.type = .buy ∧ ins.title = "Strong Buy Recommendation" := by
  have havg : avgPrice wBuyExample = 170 := by
    norm_num [avgPrice, wBuyExample]
  have hmin : minPrice wBuyExample = 80 := by decide
  have hcond : minPrice wBuyExample < (avgPrice wBuyExample : ℚ) * (9 / 10) := by
    rw [havg, hmin]
    norm_num
  exact (bestPriceClassification wBuyExample "JetBlue" wBuyExample
    (by decide) (by decide)).1 hcond

/-! ## Claim C2: per-airline flexible-date insight -/

/-- C2: for each airline group of the queried window, a flex insight is
emitted for that airline if and only if the group has at least two distinct
non-empty departure dates and the spread between the most expensive and the
cheapest of the per-date cheapest prices exceeds 20; any flex insight
emitted for the airline carries exactly that spread as its savings.  (An
airline whose observations share a single distinct date never yields a flex
insight: its distinct-date count is at most 1.) -/
theorem flexInsightIff (rows : List Row) (a : String) (g : List Row)
    (h : (a, g) ∈ groupByAirline rows) :
    ((∃ ins ∈ deriveInsights rows, ins.type = .flex ∧ ins.airline = a) ↔
        2 ≤ distinctNonEmptyDateCount g ∧ 20 < flexSavings g) ∧
    (∀ ins ∈ deriveInsights rows, ins.type = .flex → ins.airline = a →
        ins.savings = some (flexSavings g)) := by
  have hrows : rows ≠ [] := groupByAirline_rows_ne_nil h
  have hgne : g ≠ [] := groupByAirline_ne_nil rows (a, g) h
  have hspec := flexData_spec g hgne
  have hED : ∀ ins ∈ deriveInsights rows, ins.type = .flex → ins.airline = a →
      ∃ pr sv, flexData g = some (pr, sv) ∧ ins.price = pr ∧ ins.savings = some sv := by
    intro ins hins htype hair
    rw [deriveInsights_eq hrows] at hins
    rcases List.mem_append.mp hins with hins | hins
    · exact absurd htype (bestPricePass_types _ _ ins hins)
    · obtain ⟨a', g', pr, sv, h1, h2, h3, _, h5, h6⟩ := flexPass_mem_elim hins
      have haa : a' = a := by rw [← h3, hair]
      have hg' : g' = g :=
        assoc_eq_of_nodup (groupByAirline_keys_nodup rows) (haa ▸ h1) h
      rw [hg'] at h2
      exact ⟨pr, sv, h2, h5, h6⟩
  constructor
  · constructor
    · rintro ⟨ins, hins, htype, hair⟩
      obtain ⟨pr, sv, hfd, _, _⟩ := hED ins hins htype hair
      obtain ⟨hlen, hgt, hsv, _⟩ := hspec.1 pr sv hfd
      rw [uniqueDates_length] at hlen
      exact ⟨hlen, hsv ▸ hgt⟩
    · rintro ⟨hcount, hgt⟩
      have hfd := hspec.2 (by rw [uniqueDates_length]; exact hcount) hgt
      obtain ⟨k, hk⟩ := flexPass_mem_intro h hfd (1 + (groupByAirline rows).length)
      refine ⟨Insight.mk k .flex ("Cheaper " ++ a ++ " Date") a
        (((perDateMinPrices g).min?).getD 0) (some (flexSavings g)), ?_, rfl, rfl⟩
      rw [deriveInsights_eq hrows]
      exact List.mem_append.mpr (Or.inr hk)
  · intro ins hins htype hair
    obtain ⟨pr, sv, hfd, _, hs⟩ := hED ins hins htype hair
    obtain ⟨_, _, hsv, _⟩ := hspec.1 pr sv hfd
    rw [hs, hsv]

/-- The flex example's spread: per-date cheapest prices 100 and 200. -/
theorem flexSavings_wFlexExample : flexSavings wFlexExample = 100 := by
  have h1 : perDateMinPrices wFlexExample = [100, 200] := by decide
  have h2 : ([100, 200] : List ℚ).max? = some 200 := by decide
  have h3 : ([100, 200] : List ℚ).min? = some 100 := by decide
  rw [flexSavings, h1, h2, h3]
  simp only [Option.getD_some]
  norm_num

/-- C2 witness: one airline priced 100 on one date and 200 on another
yields a flex insight, and every flex insight for it has savings 100. -/
theorem flexInsightIff_witness :
    (2 ≤ distinctNonEmptyDateCount wFlexExample ∧ 20 < flexSavings wFlexExample) ∧
    (∃ ins ∈ deriveInsights wFlexExample, ins.type = .flex ∧
        ins.airline = "JetBlue") ∧
    (∀ ins ∈ deriveInsights wFlexExample, ins.type = .flex →
        ins.airline = "JetBlue" → ins.savings = some 100) := by
  have hcond : 2 ≤ distinctNonEmptyDateCount wFlexExample ∧
      20 < flexSavings wFlexExample := by
    refine ⟨by decide, ?_⟩
    rw [flexSavings_wFlexExample]
    norm_num
  have hthm := flexInsightIff wFlexExample "JetBlue" wFlexExample (by decide)
  refine ⟨hcond, hthm.1.mpr hcond, ?_⟩
  intro ins hins htype hair
  rw [hthm.2 ins hins htype hair, flexSavings_wFlexExample]

/-! ## Claim C4: ordering of the returned insight list -/

/-- The flex example's flex decision, evaluated. -/
theorem flexData_wFlexExample : flexData wFlexExample = some (100, 100) := by
  have h := (flexData_spec wFlexExample (by decide)).2 (by decide)
    (by rw [flexSavings_wFlexExample]; norm_num)
  rw [flexSavings_wFlexExample] at h
  have hm : ((perDateMinPrices wFlexExample).min?).getD 0 = 100 := by decide
  rw [hm] at h
  exact h

/-- The flex example's best-price insight, evaluated. -/
theorem airlineInsight_wFlexExample :
    airlineInsight 1 "JetBlue" wFlexExample =
      Insight.mk 1 .buy "Strong Buy Recommendation" "JetBlue" 100 none := by
  have hmin : minPrice wFlexExample = 100 := by decide
  have havg : avgPrice wFlexExample = 150 := by
    norm_num [avgPrice, wFlexExample]
  rw [airlineInsight, hmin, havg]
  rw [if_pos (by norm_num)]

/-- The full insight list of the flex example: the buy insight (id 1) comes
first, the flex insight (id 2) second. -/
theorem deriveInsights_wFlexExample :
    deriveInsights wFlexExample =
      [Insight.mk 1 .buy "Strong Buy Recommendation" "JetBlue" 100 none,
       Insight.mk 2 .flex "Cheaper JetBlue Date" "JetBlue" 100 (some 100)] := by
  have hg : groupByAirline wFlexExample = [("JetBlue", wFlexExample)] := by decide
  rw [deriveInsights_eq (by decide), hg]
  have h1 : bestPricePass 1 [("JetBlue", wFlexExample)] =
      [airlineInsight 1 "JetBlue" wFlexExample] := rfl
  have h2 : flexPass (1 + ([("JetBlue", wFlexExample)] : List (String × List Row)).length)
      [("JetBlue", wFlexExample)] =
      [Insight.mk 2 .flex "Cheaper JetBlue Date" "JetBlue" 100 (some 100)] := by
    simp only [List.length_singleton, flexPass, flexData_wFlexExample]
    rfl
  rw [h1, h2, airlineInsight_wFlexExample]
  rfl

/-- C4 counterexample: on the two-observation JetBlue window the returned
list is `[buy (id 1), flex (id 2)]`, so the flex insight does not precede
the buy insight — the claimed "flex entries surface first" ordering is
false (the code pushes flex insights after the per-airline ones). -/
theorem flexOrdering_counterexample :
    ¬ ((deriveInsights wFlexExample).Pairwise
        (fun x y => y.type = .flex → x.type = .flex)) := by
  rw [deriveInsights_wFlexExample]
  decide

/-- C4 amended: ids are assigned sequentially starting at 1 across the
whole response, and all buy/wait insights precede all flex insights (the
reverse of the claimed order). -/
theorem insightOrdering (rows : List Row) :
    (deriveInsights rows).map Insight.id =
      List.range' 1 (deriveInsights rows).length ∧
    (deriveInsights rows).Pairwise (fun x y => x.type = .flex → y.type = .flex) := by
  by_cases h : rows = []
  · subst h
    exact ⟨rfl, List.Pairwise.nil⟩
  · rw [deriveInsights_eq h]
    constructor
    · rw [List.map_append, bestPricePass_ids, flexPass_ids, List.length_append,
        bestPricePass_length]
      have hap := List.range'_append 1 (groupByAirline rows).length
        (flexPass (1 + (groupByAirline rows).length) (groupByAirline rows)).length 1
      simp only [one_mul] at hap
      rw [hap, Nat.add_comm]
    · rw [List.pairwise_append]
      refine ⟨List.pairwise_of_forall_mem_list ?_,
        List.pairwise_of_forall_mem_list ?_, ?_⟩
      · intro x hx y _ hfx
        exact absurd hfx (bestPricePass_types _ _ x hx)
      · intro x _ y hy _
        exact flexPass_types _ _ y hy
      · intro x _ y hy _
        exact flexPass_types _ _ y hy

/-! ## Claim C6: the flexible-date window -/

theorem datesToSearch_zero (s : String) : datesToSearch s 0 = [s] := by
  rw [datesToSearch, if_neg (by omega)]

theorem datesToSearch_pos (s : String) (b : ℕ) (hp : parseDate s = some b)
    (f : ℕ) (hf : 0 < f) :
    datesToSearch s f = s :: (List.range f).flatMap
      (fun i => [fmtDate (b - (i + 1)), fmtDate (b + (i + 1))]) := by
  rw [datesToSearch, if_pos hf, hp]

theorem datesToSearch_succ (s : String) (b : ℕ) (hp : parseDate s = some b)
    (f : ℕ) :
    datesToSearch s (f + 1) =
      datesToSearch s f ++ [fmtDate (b - (f + 1)), fmtDate (b + (f + 1))] := by
  rcases Nat.eq_zero_or_pos f with h0 | hpos
  · subst h0
    rw [datesToSearch_pos s b hp 1 (by omega), datesToSearch_zero,
      show List.range 1 = [0] from rfl]
    simp
  · rw [datesToSearch_pos s b hp (f + 1) (by omega), datesToSearch_pos s b hp f hpos,
      List.range_succ, List.flatMap_append]
    simp

theorem datesToSearch_length (s : String) (b : ℕ) (hp : parseDate s = some b)
    (f : ℕ) : (datesToSearch s f).length = 2 * f + 1 := by
  induction f with
  | zero => rw [datesToSearch_zero]; rfl
  | succ n ih =>
      rw [datesToSearch_succ s b hp n, List.length_append, ih]
      simp
      omega

theorem datesToSearch_getElem (s : String) (b : ℕ) (hp : parseDate s = some b) :
    ∀ f, ∀ i < f,
      (datesToSearch s f)[2 * i + 1]? = some (fmtDate (b - (i + 1))) ∧
      (datesToSearch s f)[2 * i + 2]? = some (fmtDate (b + (i + 1))) := by
  intro f
  induction f with
  | zero => intro i hi; omega
  | succ n ih =>
      intro i hi
      rw [datesToSearch_succ s b hp n]
      have hl := datesToSearch_length s b hp n
      by_cases hin : i < n
      · have h1 : 2 * i + 1 < (datesToSearch s n).length := by omega
        have h2 : 2 * i + 2 < (datesToSearch s n).length := by omega
        rw [List.getElem?_append_left h1, List.getElem?_append_left h2]
        exact ih i hin
      · have hieq : i = n := by omega
        subst hieq
        rw [List.getElem?_append_right (by omega), List.getElem?_append_right (by omega),
          hl]
        have e1 : 2 * i + 1 - (2 * i + 1) = 0 := by omega
        have e2 : 2 * i + 2 - (2 * i + 1) = 1 := by omega
        rw [e1, e2]
        exact ⟨rfl, rfl⟩

/-- C6: with `flexDays = 0` the window is exactly the base date; with
`flexDays = f > 0` it has exactly `2·f + 1` entries, the base date first,
followed for each `i = 1..f` by `base − i` at position `2(i−1)+1` and
`base + i` at position `2(i−1)+2`; concretely,
`fetchRoute(…, '2024-04-12', flexDays = 2)` searches exactly
`[2024-04-12, 2024-04-11, 2024-04-13, 2024-04-10, 2024-04-14]` in that
order. -/
theorem dateWindowSpec :
    (∀ s : String, datesToSearch s 0 = [s]) ∧
    (∀ (s : String) (b f : ℕ), 0 < f → parseDate s = some b →
        (datesToSearch s f).length = 2 * f + 1 ∧
        (datesToSearch s f).head? = some s ∧
        ∀ i < f, (datesToSearch s f)[2 * i + 1]? = some (fmtDate (b - (i + 1))) ∧
                 (datesToSearch s f)[2 * i + 2]? = some (fmtDate (b + (i + 1)))) ∧
    datesToSearch "2024-04-12" 2 =
      ["2024-04-12", "2024-04-11", "2024-04-13", "2024-04-10", "2024-04-14"] := by
  refine ⟨datesToSearch_zero, ?_, by decide⟩
  intro s b f hf hp
  refine ⟨datesToSearch_length s b hp f, ?_, datesToSearch_getElem s b hp f⟩
  rw [datesToSearch_pos s b hp f hf]
  rfl

/-- C6 witness: the spec's example window, checked through the general
theorem at `f = 2`. -/
theorem dateWindowSpec_witness :
    (datesToSearch "2024-04-12" 2).length = 2 * 2 + 1 ∧
    (datesToSearch "2024-04-12" 2)[3]? = some (fmtDate (739293 - 2)) := by
  have h := dateWindowSpec.2.1 "2024-04-12" 739293 2 (by norm_num) (by decide)
  exact ⟨h.1, (h.2.2 1 (by norm_num)).1⟩

/-! ## Claim C7: round-robin key rotation -/

theorem serpKeyIndexAfter_eq (keys : List String) (hk : keys ≠ []) (n : ℕ) :
    serpKeyIndexAfter keys n = n := by
  have hlen : ¬ keys.length = 0 := fun hc => hk (List.length_eq_zero.mp hc)
  induction n with
  | zero => rfl
  | succ m ih =>
      rw [serpKeyIndexAfter, ih, getNextSerpKey, dif_neg hlen]

/-- C7: over `k ≥ 1` configured credentials the `n`-th call to the rotation
returns the credential at index `(n − 1) mod k`; over an empty
configuration every call returns the no-key sentinel. -/
theorem keyRotation :
    (∀ (keys : List String) (n : ℕ), 1 ≤ n → keys ≠ [] →
        nthSerpKey keys n = keys[(n - 1) % keys.length]?) ∧
    (∀ n, nthSerpKey ([] : List String) n = none) := by
  constructor
  · intro keys n _ hk
    have hlen : ¬ keys.length = 0 := fun hc => hk (List.length_eq_zero.mp hc)
    rw [nthSerpKey, serpKeyIndexAfter_eq keys hk, getNextSerpKey, dif_neg hlen]
    rw [List.getElem?_eq_getElem (Nat.mod_lt _ (Nat.pos_of_ne_zero hlen))]
    rfl
  · intro n
    simp [nthSerpKey, getNextSerpKey]

/-- C7 witness: with two keys the third call wraps back to the first key;
with no keys the fifth call returns the sentinel. -/
theorem keyRotation_witness :
    nthSerpKey ["k0", "k1"] 3 = some "k0" ∧
    nthSerpKey ([] : List String) 5 = none := by
  constructor
  · have h := keyRotation.1 ["k0", "k1"] 3 (by norm_num) (by simp)
    simpa using h
  · exact keyRotation.2 5

/-! ## Claims C8 and C10: the per-fare save filter -/

theorem savedRows_airline {o d ds : String} {now : ℕ}
    {fares : List UpstreamFlight} {r : Row}
    (h : r ∈ savedRows o d ds now fares) :
    jsIncludes r.airline "JetBlue" ∨ jsIncludes r.airline "JSX" := by
  obtain ⟨f, hf, rfl⟩ := List.mem_map.mp h
  have hk := (List.mem_filter.mp hf).2
  rw [decide_eq_true_eq] at hk
  exact hk.2

theorem fetchLoop_stored {up : String → Except String (List UpstreamFlight)}
    {o d : String} {now : ℕ} :
    ∀ (ds : List String) {r : Row}, r ∈ (fetchLoop up o d now ds).2 →
      ∃ dStr fares, up dStr = .ok fares ∧ r ∈ savedRows o d dStr now fares := by
  intro ds
  induction ds with
  | nil => intro r h; simp [fetchLoop] at h
  | cons x xs ih =>
      intro r h
      rw [fetchLoop] at h
      cases hu : up x with
      | error e =>
          rw [hu] at h
          simp at h
      | ok fares =>
          rw [hu] at h
          simp only [] at h
          rcases List.mem_append.mp h with h | h
          · exact ⟨x, fares, hu, h⟩
          · exact ih h

/-- C8: every row the fetch path writes to the store has an airline
containing one of the two tracked carrier substrings; fares matching
neither "JetBlue" nor "JSX" are never written, whatever their price. -/
theorem storedAirlinesTracked (apiKey : Option String)
    (upstream : String → Except String (List UpstreamFlight))
    (origin destination baseDateStr : String) (flexDays now : ℕ) :
    ∀ r ∈ (fetchRealFlightPrices apiKey upstream origin destination baseDateStr
        flexDays now).stored,
      jsIncludes r.airline "JetBlue" ∨ jsIncludes r.airline "JSX" := by
  intro r hr
  cases apiKey with
  | none => simp [fetchRealFlightPrices] at hr
  | some k =>
      simp only [fetchRealFlightPrices] at hr
      obtain ⟨dStr, fares, _, hmem⟩ := fetchLoop_stored _ hr
      exact savedRows_airline hmem

/-- C8 witness: a fetch whose upstream returns one JetBlue fare stores a
row, and the theorem certifies its airline matches a tracked carrier. -/
theorem storedAirlinesTracked_witness :
    jsIncludes (fareToRow "JFK" "MIA" "2024-04-12" 0 jbFare).airline "JetBlue" ∨
      jsIncludes (fareToRow "JFK" "MIA" "2024-04-12" 0 jbFare).airline "JSX" := by
  apply storedAirlinesTracked (some "k") upstreamOneJetBlue "JFK" "MIA"
    "2024-04-12" 0 0
  decide

/-- C10: a fare whose airline matches a tracked carrier is saved exactly
when its price is truthy — an absent or zero price is silently dropped,
while any other price (negative ones included) is stored unvalidated; and
the per-date save loop treats each fare independently. -/
theorem fareStorageTruthiness :
    (∀ (o dst ds : String) (now : ℕ) (fares : List UpstreamFlight),
        savedRows o dst ds now fares =
          fares.flatMap (fun f => savedRows o dst ds now [f])) ∧
    (∀ (o dst ds : String) (now : ℕ) (f : UpstreamFlight),
        (jsIncludes (fareAirline f) "JetBlue" ∨ jsIncludes (fareAirline f) "JSX") →
        ((f.price = none ∨ f.price = some 0) → savedRows o dst ds now [f] = []) ∧
        (∀ p : ℚ, f.price = some p → p ≠ 0 →
            savedRows o dst ds now [f] = [fareToRow o dst ds now f])) := by
  constructor
  · intro o dst ds now fares
    induction fares with
    | nil => rfl
    | cons f fs ih =>
        rw [List.flatMap_cons, ← ih]
        unfold savedRows
        rw [List.filter_cons]
        by_cases hk : keepFare f
        · rw [if_pos (by simpa using hk)]
          simp [List.filter_cons, hk]
        · rw [if_neg (by simpa using hk)]
          simp [List.filter_cons, hk]
  · intro o dst ds now f hair
    constructor
    · intro hp
      have hnk : ¬ keepFare f := by
        intro hk
        have hpt := hk.1
        rcases hp with hp | hp
        · rw [hp] at hpt
          exact hpt
        · rw [hp] at hpt
          exact hpt rfl
      unfold savedRows
      rw [List.filter_cons, if_neg (by simpa using hnk)]
      rfl
    · intro p hp hpne
      have hk : keepFare f := by
        refine ⟨?_, hair⟩
        rw [hp]
        exact hpne
      unfold savedRows
      rw [List.filter_cons, if_pos (by simpa using hk)]
      rfl

/-- C10 witness: the negative-price JetBlue fare is stored; the zero-price
one is dropped. -/
theorem fareStorageTruthiness_witness :
    savedRows "JFK" "MIA" "2024-04-12" 0 [negPriceFare] =
      [fareToRow "JFK" "MIA" "2024-04-12" 0 negPriceFare] ∧
    savedRows "JFK" "MIA" "2024-04-12" 0 [zeroPriceFare] = [] := by
  constructor
  · exact (fareStorageTruthiness.2 "JFK" "MIA" "2024-04-12" 0 negPriceFare
      (by decide)).2 (-5) rfl (by norm_num)
  · exact (fareStorageTruthiness.2 "JFK" "MIA" "2024-04-12" 0 zeroPriceFare
      (by decide)).1 (Or.inr rfl)

/-! ## Claim C5: no validation on the ingestion path -/

/-- C5 counterexample: a tracked-carrier fare priced −5 — i.e. an
observation with `price ≤ 0` — is persisted by the ingestion path (the
store gains the row; nothing fails), contradicting the claimed
`ValidationError` rejection of non-positive prices. -/
theorem validationError_counterexample :
    (fareToRow "JFK" "MIA" "2024-04-12" 0 negPriceFare).price = -5 ∧
    (fareToRow "JFK" "MIA" "2024-04-12" 0 negPriceFare).price ≤ 0 ∧
    savedRows "JFK" "MIA" "2024-04-12" 0 [negPriceFare] =
      [fareToRow "JFK" "MIA" "2024-04-12" 0 negPriceFare] := by
  refine ⟨rfl, by norm_num [fareToRow, negPriceFare], by decide⟩

/-- C5 amended: the ingestion path raises no `ValidationError` and performs
no field validation.  A fare whose price is missing or zero, or whose
airline is empty, is silently dropped (not persisted, no error raised);
but a fare with a negative price is persisted, and empty `origin` or
`destination` is not rejected either — a tracked-carrier fare with truthy
price is persisted for every origin/destination, the empty strings
included (the third conjunct quantifies over all of them). -/
theorem ingestionNoValidation :
    (∀ (o dst ds : String) (now : ℕ) (f : UpstreamFlight),
        f.price = none ∨ f.price = some 0 → savedRows o dst ds now [f] = []) ∧
    (∀ (o dst ds : String) (now : ℕ) (f : UpstreamFlight),
        fareAirline f = "" → savedRows o dst ds now [f] = []) ∧
    (∀ (o dst ds : String) (now : ℕ) (f : UpstreamFlight) (p : ℚ),
        f.price = some p → p ≠ 0 →
        (jsIncludes (fareAirline f) "JetBlue" ∨ jsIncludes (fareAirline f) "JSX") →
        savedRows o dst ds now [f] = [fareToRow o dst ds now f]) := by
  refine ⟨?_, ?_, ?_⟩
  · intro o dst ds now f hp
    have hnk : ¬ keepFare f := by
      intro hk
      have hpt := hk.1
      rcases hp with hp | hp
      · rw [hp] at hpt
        exact hpt
      · rw [hp] at hpt
        exact hpt rfl
    unfold savedRows
    rw [List.filter_cons, if_neg (by simpa using hnk)]
    rfl
  · intro o dst ds now f hair
    have hnk : ¬ keepFare f := by
      intro hk
      rcases hk.2 with hk2 | hk2
      · rw [hair] at hk2
        exact absurd hk2 (by decide)
      · rw [hair] at hk2
        exact absurd hk2 (by decide)
    unfold savedRows
    rw [List.filter_cons, if_neg (by simpa using hnk)]
    rfl
  · intro o dst ds now f p hp hpne hair
    have hk : keepFare f := by
      refine ⟨?_, hair⟩
      rw [hp]
      exact hpne
    unfold savedRows
    rw [List.filter_cons, if_pos (by simpa using hk)]
    rfl

/-- C5 amended witness: the zero-price fare and the airline-less fare are
both dropped without error, while the negative-price JetBlue fare is
persisted even with empty origin and destination codes. -/
theorem ingestionNoValidation_witness :
    savedRows "JFK" "MIA" "2024-04-12" 0 [zeroPriceFare] = [] ∧
    savedRows "JFK" "MIA" "2024-04-12" 0 [emptyAirlineFare] = [] ∧
    savedRows "" "" "2024-04-12" 0 [negPriceFare] =
      [fareToRow "" "" "2024-04-12" 0 negPriceFare] :=
  ⟨ingestionNoValidation.1 "JFK" "MIA" "2024-04-12" 0 zeroPriceFare (Or.inr rfl),
   ingestionNoValidation.2.1 "JFK" "MIA" "2024-04-12" 0 emptyAirlineFare rfl,
   ingestionNoValidation.2.2 "" "" "2024-04-12" 0 negPriceFare (-5) rfl
     (by norm_num) (by decide)⟩

/-! ## Claim C3: per-date failure handling in the fetch loop -/

/-- C3 counterexample: with a three-date window and the upstream failing on
the base date, only the base date is ever queried — the two remaining
candidate dates of the window are not attempted, although the call still
returns an outcome (reports success). -/
theorem fetchAbort_counterexample :
    (fetchRealFlightPrices (some "k") upstreamFailingOnBase "JFK" "MIA"
        "2024-04-12" 1 0).attempted = ["2024-04-12"] ∧
    "2024-04-11" ∈ datesToSearch "2024-04-12" 1 ∧
    "2024-04-11" ∉ (fetchRealFlightPrices (some "k") upstreamFailingOnBase "JFK"
        "MIA" "2024-04-12" 1 0).attempted ∧
    (fetchRealFlightPrices (some "k") upstreamFailingOnBase "JFK" "MIA"
        "2024-04-12" 1 0).noKey = false := by
  refine ⟨by decide, by decide, by decide, rfl⟩

/-- C3 amended: an upstream failure on one candidate date is caught by the
`try`/`catch` that wraps the whole per-date loop, so the failing date is
the last one attempted — no later date of the window is queried — while
the fetch itself still returns normally (the caller observes success). -/
theorem fetchPerDateFailureAborts
    (upstream : String → Except String (List UpstreamFlight))
    (o d : String) (now : ℕ) (pre : List String) (dd : String)
    (post : List String) (e : String)
    (hok : ∀ x ∈ pre, ∃ fs, upstream x = .ok fs)
    (herr : upstream dd = .error e) :
    (fetchLoop upstream o d now (pre ++ dd :: post)).1 = pre ++ [dd] ∧
    ∀ (k base : String) (f : ℕ),
      (fetchRealFlightPrices (some k) upstream o d base f now).noKey = false := by
  refine ⟨?_, fun _ _ _ => rfl⟩
  induction pre with
  | nil =>
      rw [List.nil_append, fetchLoop, herr]
      rfl
  | cons x xs ih =>
      obtain ⟨fs, hfs⟩ := hok x (List.mem_cons_self _ _)
      rw [List.cons_append, fetchLoop, hfs]
      simp only []
      rw [ih (fun y hy => hok y (List.mem_cons_of_mem _ hy))]
      rfl

/-- C3 amended witness: the loop over `[base, base−1, base+1]` with the
upstream failing on `base` attempts only `base`. -/
theorem fetchPerDateFailureAborts_witness :
    (fetchLoop upstreamFailingOnBase "JFK" "MIA" 0
        ("2024-04-12" :: ["2024-04-11", "2024-04-13"])).1 = ["2024-04-12"] := by
  have h := fetchPerDateFailureAborts upstreamFailingOnBase "JFK" "MIA" 0 []
    "2024-04-12" ["2024-04-11", "2024-04-13"] "ECONNRESET" (by simp) (by rfl)
  simpa using h.1

/-! ## Claim C9: record then query history -/

theorem sortByScrapedAt_perm (l : List Row) : (sortByScrapedAt l).Perm l :=
  List.perm_insertionSort _ l

theorem sortByScrapedAt_sorted (l : List Row) :
    List.Sorted (fun x y => x.scraped_at ≤ y.scraped_at) (sortByScrapedAt l) :=
  List.sorted_insertionSort _ l

/-- C9: recording a valid observation and querying its route (in any letter
case) returns a list containing it with airport codes upper-cased; every
history result is ordered by `scraped_at` ascending; the optional filter
matches both airports case-insensitively and exactly; and the absence of a
filter returns the full history. -/
theorem recordQueryHistory :
    (∀ (store : List Row) (obs : Row) (o' d' : String),
        0 < obs.price → obs.airline ≠ "" → obs.origin ≠ "" → obs.destination ≠ "" →
        upperStr o' = upperStr obs.origin → upperStr d' = upperStr obs.destination →
        ({ obs with origin := upperStr obs.origin,
                    destination := upperStr obs.destination } : Row) ∈
          queryHistory (record store obs) (some (o', d'))) ∧
    (∀ (store : List Row) (filt : Option (String × String)),
        List.Sorted (fun x y => x.scraped_at ≤ y.scraped_at)
          (queryHistory store filt)) ∧
    (∀ (store : List Row) (o d : String) (r : Row),
        r ∈ queryHistory store (some (o, d)) ↔
          r ∈ store ∧ upperStr r.origin = upperStr o ∧
            upperStr r.destination = upperStr d) ∧
    (∀ store : List Row, (queryHistory store none).Perm store) := by
  have hmemiff : ∀ (store : List Row) (o d : String) (r : Row),
      r ∈ queryHistory store (some (o, d)) ↔
        r ∈ store ∧ upperStr r.origin = upperStr o ∧
          upperStr r.destination = upperStr d := by
    intro store o d r
    unfold queryHistory
    rw [(sortByScrapedAt_perm _).mem_iff, List.mem_filter, decide_eq_true_eq]
    unfold rowMatches
    tauto
  refine ⟨?_, ?_, hmemiff, ?_⟩
  · intro store obs o' d' _ _ _ _ ho hd
    rw [hmemiff]
    refine ⟨?_, ?_, ?_⟩
    · unfold record
      exact List.mem_append.mpr (Or.inr (List.mem_singleton.mpr rfl))
    · show upperStr (upperStr obs.origin) = upperStr o'
      rw [upperStr_idem, ho]
    · show upperStr (upperStr obs.destination) = upperStr d'
      rw [upperStr_idem, hd]
  · intro store filt
    cases filt with
    | none => exact sortByScrapedAt_sorted _
    | some p =>
        obtain ⟨o, d⟩ := p
        exact sortByScrapedAt_sorted _
  · intro store
    exact sortByScrapedAt_perm _

/-- C9 witness: recording the lower-case-route observation and querying
`("Jfk", "MIA")` returns the upper-cased row. -/
theorem recordQueryHistory_witness :
    ({ obsLower with origin := upperStr obsLower.origin,
                     destination := upperStr obsLower.destination } : Row) ∈
      queryHistory (record [] obsLower) (some ("Jfk", "MIA")) :=
  recordQueryHistory.1 [] obsLower "Jfk" "MIA" (by norm_num [obsLower])
    (by decide) (by decide) (by decide) (by decide) (by decide)

end FlightTracker
